import Mathlib

/-!
Shallow embedding of the myleo-legal retrieval core:
  - Database.stemWord and ChatService.stemWord (French suffix stripping),
  - RagSearchService (query normalization, variant building, scoring,
    aggregation, ranking, fallback and error handling),
  - CacheService (bounded map with least-recent-access eviction),
  - ChatService.findBestQAMatchEnhanced (composite QA matching).

Strings are modelled as lists of characters (type Str below).  JavaScript
numbers are modelled as exact rationals; timestamps as integers.  JavaScript
is single threaded, so each method body is a pure function of its inputs and
an explicit clock value standing for Date.now().
-/

namespace Myleo

/-- Strings of the embedded program: plain lists of characters. -/
abbrev Str : Type := List Char

/-- Coercion from Lean string literals to the embedded string type. -/
def strOf (s : String) : Str := s.data

/-- Whitespace test for the JavaScript regex class \s (ASCII part; the
claims only exercise ASCII whitespace). -/
def isWsChar (c : Char) : Bool :=
  c = ' ' || c = '\t' || c = '\n' || c = '\r'

/-- Word-character test for the JavaScript regex class \w:
A-Z, a-z, 0-9 and underscore, never accented letters. -/
def isWordChar (c : Char) : Bool :=
  ('a' ≤ c && c ≤ 'z') || ('A' ≤ c && c ≤ 'Z') || ('0' ≤ c && c ≤ '9') || c = '_'

/-- ASCII lower casing, modelling String.prototype.toLowerCase on the
inputs exercised by the claims (non-ASCII characters in those inputs are
already lower case). -/
def lowerChar (c : Char) : Char :=
  if 'A' ≤ c && c ≤ 'Z' then Char.ofNat (c.toNat + 32) else c

/-- Lower casing of an embedded string. -/
def lowerStr (s : Str) : Str := s.map lowerChar

/-- JavaScript String.prototype.trim (drop whitespace at both ends). -/
def trimStr (s : Str) : Str :=
  ((s.dropWhile isWsChar).reverse.dropWhile isWsChar).reverse

/-- Replacement stage of replace(/[^\w\s]/g, ' '): every character that is
neither a word character nor whitespace becomes a space. -/
def replaceNonWord (s : Str) : Str :=
  s.map (fun c => if !(isWordChar c) && !(isWsChar c) then ' ' else c)

/-- Helper of collapseWs; the flag records whether the previous character
was whitespace (a run in progress emits nothing further). -/
def collapseWsAux : Bool → Str → Str
  | _, [] => []
  | prevWs, c :: rest =>
    if isWsChar c then
      if prevWs then collapseWsAux true rest
      else ' ' :: collapseWsAux true rest
    else c :: collapseWsAux false rest

/-- Collapsing stage of replace(/\s+/g, ' '): every maximal whitespace run
becomes a single space. -/
def collapseWs (s : Str) : Str := collapseWsAux false s

/-- Helper of wsTokens; the first argument is the reversed current run. -/
def wsTokensAux : Str → Str → List Str
  | cur, [] => if cur.isEmpty then [] else [cur.reverse]
  | cur, c :: rest =>
    if isWsChar c then
      if cur.isEmpty then wsTokensAux [] rest
      else cur.reverse :: wsTokensAux [] rest
    else wsTokensAux (c :: cur) rest

/-- Maximal non-whitespace runs of a string, in order. -/
def wsTokens (s : Str) : List Str := wsTokensAux [] s

/-- JavaScript split(/\s+/): the non-whitespace runs, plus an empty leading
token when the string starts with whitespace, an empty trailing token when
it ends with whitespace, and a single empty token for the empty string. -/
def splitWsJS (s : Str) : List Str :=
  match s with
  | [] => [[]]
  | c :: _ =>
    (if isWsChar c then [([] : Str)] else []) ++ wsTokens s ++
      (if isWsChar (s.getLastD 'x') then [([] : Str)] else [])

/-- JavaScript s.includes(sub): substring containment test. -/
def containsSub : Str → Str → Bool
  | s, sub =>
    if sub.isPrefixOf s then true
    else
      match s with
      | [] => false
      | _ :: rest => containsSub rest sub

/-- JavaScript str.replace(target, repl) with plain string arguments:
replace the first occurrence of the substring target, or return the string
unchanged when there is none (the empty target matches at position 0). -/
def replaceFirst (tgt rep : Str) : Str → Str
  | [] => if tgt = ([] : Str) then rep else []
  | c :: rest =>
    if tgt.isPrefixOf (c :: rest) then rep ++ (c :: rest).drop tgt.length
    else c :: replaceFirst tgt rep rest

/-! Rational arithmetic written through Rat.divInt so that the kernel can
evaluate every embedded computation on concrete inputs; the lemmas qadd_eq,
qsub_eq, qmul_eq and qdiv_eq below identify these with the field
operations of ℚ. -/

/-- Kernel-evaluable addition on ℚ. -/
def qadd (a b : ℚ) : ℚ := Rat.divInt (a.num * b.den + b.num * a.den) (a.den * b.den)

/-- Kernel-evaluable subtraction on ℚ. -/
def qsub (a b : ℚ) : ℚ := Rat.divInt (a.num * b.den - b.num * a.den) (a.den * b.den)

/-- Kernel-evaluable multiplication on ℚ. -/
def qmul (a b : ℚ) : ℚ := Rat.divInt (a.num * b.num) (a.den * b.den)

/-- Kernel-evaluable division on ℚ (zero denominator gives zero, as the
division of ℚ does). -/
def qdiv (a b : ℚ) : ℚ := Rat.divInt (a.num * b.den) (a.den * b.num)

theorem qadd_eq (a b : ℚ) : qadd a b = a + b := by
  rw [qadd, Rat.add_num_den a b]
  congr 1
  ring

theorem qsub_eq (a b : ℚ) : qsub a b = a - b := by
  have h : a - b = a + -b := sub_eq_add_neg a b
  rw [qsub, h, Rat.add_num_den a (-b), Rat.neg_num, Rat.neg_den]
  congr 1
  ring

theorem qmul_eq (a b : ℚ) : qmul a b = a * b := by
  rw [qmul, Rat.mul_eq_mkRat, Rat.mkRat_eq_divInt]
  congr 1

theorem qdiv_eq (a b : ℚ) : qdiv a b = a / b := by
  rw [qdiv, Rat.div_def' a b]

/-- JavaScript truthiness of a possibly-null string value: null, undefined
and the empty string are falsy. -/
def jsTruthyStr : Option Str → Bool
  | none => false
  | some s => !s.isEmpty

/-- JavaScript truthiness filter on a possibly-null number: returns the
value when it is present and nonzero, otherwise none. -/
def truthyNum : Option ℚ → Option ℚ
  | none => none
  | some x => if x = 0 then none else some x

/-- JavaScript a || b on possibly-null numbers with a numeric default:
first truthy operand, else the default. -/
def jsOrNum (a b : Option ℚ) (dflt : ℚ) : ℚ :=
  match truthyNum a with
  | some x => x
  | none =>
    match truthyNum b with
    | some y => y
    | none => dflt

end Myleo

namespace Myleo

/-! ## French stemming (src/service/server.js lines 903-938 and
src/service/services/cacheService.js lines 1156-1172) -/

/-- Shared loop body of both stemWord implementations: scan the suffix
table in order and strip the first suffix that matches the end of the word
while word.length > suffix.length + 2; return the word unchanged when no
table entry qualifies. -/
def stemLoop (w : Str) : List Str → Str
  | [] => w
  | suf :: rest =>
    if suf.isSuffixOf w && decide (w.length > suf.length + 2) then
      w.take (w.length - suf.length)
    else stemLoop w rest

namespace Database

/-- Suffix table of Database.stemWord, in source order (server.js 908-929);
every replacement in the source table is the empty string. -/
def frenchSuffixes : List Str :=
  [strOf "ation", strOf "tion", strOf "sion", strOf "ment", strOf "ique",
   strOf "able", strOf "ible", strOf "eur", strOf "euse", strOf "ant",
   strOf "ent", strOf "er", strOf "ir", strOf "oir", strOf "ez",
   strOf "ons", strOf "ont", strOf "ais", strOf "ait", strOf "es",
   strOf "s"]

/-- Database.stemWord (server.js 903-938). -/
def stemWord (w : Str) : Str := stemLoop w frenchSuffixes

end Database

namespace ChatService

/-- Suffix table of ChatService.stemWord, in source order
(cacheService.js 1157-1161). -/
def frenchSuffixes : List Str :=
  [strOf "tion", strOf "sion", strOf "ment", strOf "ique", strOf "able",
   strOf "ible", strOf "eur", strOf "euse", strOf "ant", strOf "ent",
   strOf "ais", strOf "ait", strOf "ons", strOf "ez", strOf "ont",
   strOf "er", strOf "ir", strOf "oir"]

/-- ChatService.stemWord (cacheService.js 1156-1172). -/
def stemWord (w : Str) : Str := stemLoop w frenchSuffixes

end ChatService

/-- First-match characterization of the stemming loop, stated with
List.find?. -/
def stemBySpec (table : List Str) (w : Str) : Str :=
  match table.find? (fun suf => suf.isSuffixOf w && decide (w.length > suf.length + 2)) with
  | some suf => w.take (w.length - suf.length)
  | none => w

/-- Longest-qualifying-suffix stemmer, written from the words of the claim
(remove the longest table suffix that matches under the length guard); used
to compare the claim against the code. -/
def stemByLongest (table : List Str) (w : Str) : Str :=
  let qualifying := table.filter (fun suf => suf.isSuffixOf w && decide (w.length > suf.length + 2))
  match qualifying.foldl
      (fun best suf =>
        match best with
        | none => some suf
        | some b => if suf.length > b.length then some suf else some b) none with
  | some suf => w.take (w.length - suf.length)
  | none => w

/-! ## Association lists standing for JavaScript Map objects.
A Map keeps insertion order; set on an existing key updates the value in
place, set on a fresh key appends, delete removes the entry. -/

/-- Lookup in an insertion-ordered association list. -/
def alookup {β : Type} : List (Str × β) → Str → Option β
  | [], _ => none
  | (k, v) :: rest, key => if k = key then some v else alookup rest key

/-- Map.prototype.set: update in place when the key is present, append
otherwise. -/
def aset {β : Type} : List (Str × β) → Str → β → List (Str × β)
  | [], k, v => [(k, v)]
  | (k0, v0) :: rest, k, v =>
    if k0 = k then (k0, v) :: rest else (k0, v0) :: aset rest k v

/-- Map.prototype.delete: remove the entry of the key (keys are unique in
a Map, so removing the first occurrence is removing the entry). -/
def aerase {β : Type} : List (Str × β) → Str → List (Str × β)
  | [], _ => []
  | (k0, v0) :: rest, k => if k0 = k then rest else (k0, v0) :: aerase rest k

/-! ## CacheService (src/service/services/cacheService.js lines 1-230) -/

namespace CacheService

/-- Stored cache entry (cacheService.js 67-71). -/
structure CacheEntry (α : Type) where
  value : α
  expires : Int
  created : Int
deriving DecidableEq

/-- Operation counters of the service (cacheService.js 16-22). -/
structure CacheStats where
  hits : Nat
  misses : Nat
  sets : Nat
  deletes : Nat
  evictions : Nat
deriving DecidableEq

/-- State of a CacheService instance: the entry map, the access-order map
(key to last access timestamp), the configured bounds and the counters.
The config.useClone deep cloning is the identity on our value model, and
the periodic cleanup timer is real time and outside the claims. -/
structure CacheState (α : Type) where
  cache : List (Str × CacheEntry α)
  accessOrder : List (Str × Int)
  maxEntries : Nat
  ttl : Int
  stats : CacheStats
deriving DecidableEq

/-- A fresh instance: empty maps, zero counters (cacheService.js 2-23). -/
def initState (α : Type) (maxEntries : Nat) (ttl : Int) : CacheState α :=
  { cache := [], accessOrder := [], maxEntries := maxEntries, ttl := ttl,
    stats := ⟨0, 0, 0, 0, 0⟩ }

/-- CacheService.delete (cacheService.js 82-90). -/
def del {α : Type} (st : CacheState α) (key : Str) : CacheState α :=
  if (alookup st.cache key).isSome then
    { st with cache := aerase st.cache key,
              accessOrder := aerase st.accessOrder key,
              stats := { st.stats with deletes := st.stats.deletes + 1 } }
  else st

/-- CacheService.get (cacheService.js 30-50); now stands for Date.now(). -/
def get {α : Type} (st : CacheState α) (now : Int) (key : Str) :
    Option α × CacheState α :=
  match alookup st.cache key with
  | none =>
    (none, { st with stats := { st.stats with misses := st.stats.misses + 1 } })
  | some e =>
    if now > e.expires then
      let st1 := del st key
      (none, { st1 with stats := { st1.stats with misses := st1.stats.misses + 1 } })
    else
      (some e.value,
       { st with accessOrder := aset st.accessOrder key now,
                 stats := { st.stats with hits := st.stats.hits + 1 } })

/-- Body of the search loop in evictOldest (cacheService.js 187-192):
keep the current best unless the visited access time is strictly
smaller. -/
def selStep (best : Option Str × Int) (kt : Str × Int) : Option Str × Int :=
  if kt.2 < best.2 then (some kt.1, kt.2) else best

/-- Fold of the search loop in evictOldest (cacheService.js 184-192): the
first key whose access time is strictly below every time seen so far,
starting from oldestTime = Date.now(). -/
def selectOldest (accessOrder : List (Str × Int)) (now : Int) : Option Str × Int :=
  accessOrder.foldl selStep (none, now)

/-- CacheService.evictOldest (cacheService.js 180-198).  The final
`if (oldestKey)` is a truthiness test: oldestKey still null (no access
time strictly below Date.now()) or holding the empty string both skip the
deletion, so nothing is evicted in those cases. -/
def evictOldest {α : Type} (st : CacheState α) (now : Int) : CacheState α :=
  if st.accessOrder.isEmpty then st
  else
    match (selectOldest st.accessOrder now).1 with
    | some k =>
      if k.isEmpty then st
      else
        let st1 := del st k
        { st1 with stats := { st1.stats with evictions := st1.stats.evictions + 1 } }
    | none => st

/-- CacheService.set (cacheService.js 58-76); customTtl || this.ttl treats
a zero custom TTL as absent. -/
def set {α : Type} (st : CacheState α) (now : Int) (key : Str) (value : α)
    (customTtl : Option Int) : CacheState α :=
  let ttl : Int :=
    match customTtl with
    | some t => if t = 0 then st.ttl else t
    | none => st.ttl
  let expires := now + ttl
  let st1 :=
    if st.cache.length ≥ st.maxEntries && !(alookup st.cache key).isSome then
      evictOldest st now
    else st
  { st1 with cache := aset st1.cache key ⟨value, expires, now⟩,
             accessOrder := aset st1.accessOrder key now,
             stats := { st1.stats with sets := st1.stats.sets + 1 } }

end CacheService

/-! ## RagSearchService (src/service/server.js lines 1119-1476) -/

namespace Rag

/-- Effective configuration after the constructor defaults
(server.js 1124-1135); numeric literals are kept as exact rationals. -/
structure RagConfig where
  maxQueryVariants : Nat
  maxCandidatesPerVariant : Nat
  topKResults : Nat
  minScore : ℚ
  cacheTtl : Int
  recencyBoostDays : Int
  rubriqueBoost : ℚ
  productBoost : ℚ
  variantDecay : ℚ
  fallbackLimit : Nat
deriving DecidableEq

/-- Defaults taken when the constructor receives an empty config object
(4, 12, 3, 0.35, 240000, 30, 0.15, 0.2, 0.15, 5). -/
def defaultConfig : RagConfig :=
  { maxQueryVariants := 4, maxCandidatesPerVariant := 12, topKResults := 3,
    minScore := mkRat 7 20, cacheTtl := 240000, recencyBoostDays := 30,
    rubriqueBoost := mkRat 3 20, productBoost := mkRat 1 5, variantDecay := mkRat 3 20,
    fallbackLimit := 5 }

/-- Session fields read by the service. -/
structure Session where
  languageCode : Option Str
  rubrique : Option Str
  productCode : Option Str
deriving DecidableEq

/-- Filter object attached to a variant (server.js 1201-1205). -/
structure VFilters where
  languageCode : Option Str
  rubrique : Option Str
  productCode : Option Str
deriving DecidableEq

/-- One query variant (server.js 1208-1214). -/
structure Variant where
  query : Str
  weight : ℚ
  reason : Str
  filters : VFilters
  allowFallback : Bool
  cacheKey : Str
deriving DecidableEq

/-- Filter object passed to the database search calls
(server.js 1259-1276). -/
structure SearchFilters where
  languageCode : Option Str
  limit : Option Nat
  rubrique : Option Str
  productRef : Option Str
deriving DecidableEq

/-- Database result row, restricted to the fields the service reads.
last_updated models the parsed timestamp of a truthy, parseable date; the
value none covers a null, falsy or unparseable field (server.js 1402-1408
guards with a truthiness test and an isNaN test before using it). -/
structure Row where
  id : Nat
  rubrique : Option Str
  product_ref : Option Str
  enhanced_relevance : Option ℚ
  relevance : Option ℚ
  last_updated : Option Int
deriving DecidableEq

/-- Scored candidate produced by scoreResults (server.js 1410-1416). -/
structure Candidate where
  faqId : Nat
  row : Row
  variantReason : Str
  variantWeight : ℚ
  score : ℚ
deriving DecidableEq

/-- Aggregated candidate produced by aggregateCandidates
(server.js 1429-1434). -/
structure Agg where
  faqId : Nat
  row : Row
  score : ℚ
  sources : List Str
deriving DecidableEq

/-- Ranked candidate: an aggregated candidate with a 1-based rank
(server.js 1180-1183). -/
structure Ranked where
  faqId : Nat
  row : Row
  score : ℚ
  sources : List Str
  rank : Nat
deriving DecidableEq

/-- Return value of retrieve in the non-null case (server.js 1188-1193). -/
structure RetrieveResult where
  normalizedQuery : Str
  variants : List Variant
  rankedCandidates : List Ranked
  topCandidates : List Ranked
deriving DecidableEq

/-- RagSearchService.normalizeQuery (server.js 1441-1448):
lower case, trim, map punctuation to spaces, collapse whitespace, trim. -/
def normalizeQuery (query : Str) : Str :=
  trimStr (collapseWs (replaceNonWord (trimStr (lowerStr query))))

/-- Fixed synonym map of the service constructor (server.js 1137-1145),
as an insertion-ordered association list. -/
def synonymMap : List (Str × List Str) :=
  [(strOf "horaire", [strOf "heures", strOf "ouverture", strOf "fermeture", strOf "disponibilite"]),
   (strOf "prix", [strOf "tarif", strOf "cout", strOf "montant", strOf "facture"]),
   (strOf "support", [strOf "assistance", strOf "aide", strOf "contact", strOf "service client"]),
   (strOf "produit", [strOf "offre", strOf "solution", strOf "service"]),
   (strOf "compte", [strOf "profil", strOf "espace client", strOf "identifiant"]),
   (strOf "paiement", [strOf "reglement", strOf "transaction", strOf "facturation"]),
   (strOf "inscription", [strOf "adhesion", strOf "enregistrement", strOf "creation compte"])]

/-- Push into a JavaScript Set kept as an insertion-ordered list. -/
def setAdd {β : Type} [DecidableEq β] (l : List β) (x : β) : List β :=
  if x ∈ l then l else l ++ [x]

/-- RagSearchService.expandSynonyms (server.js 1450-1464): for each word of
the query (split on single spaces) that is a key of the synonym map, add
the query with the first occurrence of that word replaced by each synonym;
duplicates are removed by the Set while insertion order is kept. -/
def expandSynonyms (query : Str) : List Str :=
  let words := query.splitOn ' '
  words.foldl
    (fun acc word =>
      match alookup synonymMap word with
      | none => acc
      | some syns => syns.foldl (fun acc2 syn => setAdd acc2 (replaceFirst word syn query)) acc)
    []

/-- Code-unit lexicographic comparison of strings, modelling the default
JavaScript Array.prototype.sort comparator on strings. -/
def strLtB : Str → Str → Bool
  | [], [] => false
  | [], _ :: _ => true
  | _ :: _, [] => false
  | a :: as, b :: bs =>
    if a.toNat < b.toNat then true
    else if b.toNat < a.toNat then false
    else strLtB as bs

/-- Stable insertion of a string into a lexicographically sorted list. -/
def insertStr (x : Str) : List Str → List Str
  | [] => [x]
  | y :: rest => if strLtB x y then x :: y :: rest else y :: insertStr x rest

/-- Stable lexicographic sort (Array.prototype.sort with the default
comparator is stable and string comparison is a total preorder, so it
computes the stable insertion sort). -/
def sortStrs (l : List Str) : List Str := l.foldr insertStr []

/-- RagSearchService.buildCacheKey (server.js 1466-1474): truthy filter
entries rendered as key:value, sorted, joined with a bar, after the
rag:query: prefix.  Object.entries iterates the three fields in insertion
order languageCode, rubrique, productCode. -/
def buildCacheKey (query : Str) (filters : VFilters) : Str :=
  let entries : List (Str × Option Str) :=
    [(strOf "languageCode", filters.languageCode),
     (strOf "rubrique", filters.rubrique),
     (strOf "productCode", filters.productCode)]
  let parts := (entries.filter (fun kv => jsTruthyStr kv.2)).map
    (fun kv => kv.1 ++ [':'] ++ kv.2.getD [])
  strOf "rag:" ++ query ++ [':'] ++ List.intercalate [ '|' ] (sortStrs parts)

/-- Guarded push of pushVariant (server.js 1207-1214): append while the
list is shorter than maxQueryVariants, drop otherwise. -/
def pushVariant (cfg : RagConfig) (vars : List Variant) (v : Variant) : List Variant :=
  if vars.length ≥ cfg.maxQueryVariants then vars else vars ++ [v]

/-- RagSearchService.buildQueryVariants (server.js 1199-1255). -/
def buildQueryVariants (cfg : RagConfig) (query : Str) (session : Session) : List Variant :=
  let baseFilters : VFilters :=
    ⟨session.languageCode, session.rubrique, session.productCode⟩
  let mk := fun (q : Str) (w : ℚ) (r : Str) (f : VFilters) (fb : Bool) =>
    ({ query := q, weight := w, reason := r, filters := f, allowFallback := fb,
       cacheKey := buildCacheKey q f } : Variant)
  let vs := pushVariant cfg [] (mk query 1 (strOf "base") baseFilters true)
  let vs :=
    if jsTruthyStr session.productCode then
      pushVariant cfg vs
        (mk (trimStr (session.productCode.getD [] ++ [' '] ++ query))
          (qsub 1 cfg.variantDecay) (strOf "product")
          { baseFilters with productCode := session.productCode } true)
    else vs
  let vs :=
    if jsTruthyStr session.rubrique && decide (session.rubrique ≠ some (strOf "general")) then
      pushVariant cfg vs
        (mk (trimStr (replaceFirst (strOf "_") (strOf " ") (session.rubrique.getD []) ++ [' '] ++ query))
          (qsub 1 cfg.variantDecay) (strOf "rubrique")
          { baseFilters with rubrique := session.rubrique } false)
    else vs
  (expandSynonyms query).enum.foldl
    (fun acc iv =>
      pushVariant cfg acc
        (mk iv.2 (max (mkRat 3 10) (qsub 1 (qmul ((iv.1 + 1 : ℕ) : ℚ) cfg.variantDecay)))
          (strOf "synonym") baseFilters (decide (iv.1 = 0))))
    vs

/-- RagSearchService.buildFilters (server.js 1257-1276). -/
def buildFilters (cfg : RagConfig) (session : Session) (variant : Variant) : SearchFilters :=
  let rubrique :=
    if jsTruthyStr variant.filters.rubrique then variant.filters.rubrique
    else if jsTruthyStr session.rubrique && decide (session.rubrique ≠ some (strOf "general")) then
      session.rubrique
    else none
  let productRef :=
    if jsTruthyStr variant.filters.productCode then variant.filters.productCode
    else if jsTruthyStr session.productCode then session.productCode
    else none
  { languageCode := session.languageCode,
    limit := some cfg.maxCandidatesPerVariant,
    rubrique := rubrique, productRef := productRef }

/-- RagSearchService.normalizeFilters (server.js 1373-1384): keep only the
truthy fields. -/
def normalizeFilters (filters : SearchFilters) : SearchFilters :=
  { languageCode := if jsTruthyStr filters.languageCode then filters.languageCode else none,
    rubrique := if jsTruthyStr filters.rubrique then filters.rubrique else none,
    productRef := if jsTruthyStr filters.productRef then filters.productRef else none,
    limit :=
      match filters.limit with
      | some n => if n = 0 then none else some n
      | none => none }

/-- RagSearchService.buildFallbackFilterVariants (server.js 1328-1371):
progressively relaxed copies of the normalized filters, deduplicated by
structural equality (JSON.stringify of records with a fixed field order
and absent falsy fields agrees with structural equality here). -/
def buildFallbackFilterVariants (filters : SearchFilters) : List SearchFilters :=
  let normalized := normalizeFilters filters
  let push := fun (l : List SearchFilters) (x : SearchFilters) => setAdd l x
  let vs := push [] normalized
  let vs := if jsTruthyStr normalized.productRef then push vs { normalized with productRef := none } else vs
  let vs := if jsTruthyStr normalized.rubrique then push vs { normalized with rubrique := none } else vs
  let vs := push vs { normalized with productRef := none, rubrique := none }
  let vs := push vs { languageCode := normalized.languageCode, limit := normalized.limit,
                      rubrique := none, productRef := none }
  push vs { languageCode := none, limit := normalized.limit, rubrique := none, productRef := none }

/-- Cutoff of the recency window (server.js 1388). -/
def recentCutoff (cfg : RagConfig) (now : Int) : Int :=
  now - cfg.recencyBoostDays * 24 * 60 * 60 * 1000

/-- Score of one result row (server.js 1390-1416): the || chain on the
relevance fields (zero is falsy), the variant weight, the two session
boosts and the recency boost. -/
def scoreOne (cfg : RagConfig) (now : Int) (variant : Variant) (session : Session)
    (result : Row) : Candidate :=
  let baseScore := jsOrNum result.enhanced_relevance result.relevance (mkRat 1 5)
  let score0 := qmul baseScore variant.weight
  let score1 :=
    if jsTruthyStr session.productCode && decide (result.product_ref = session.productCode) then
      qadd score0 cfg.productBoost
    else score0
  let score2 :=
    if jsTruthyStr session.rubrique && decide (result.rubrique = session.rubrique) then
      qadd score1 cfg.rubriqueBoost
    else score1
  let cutoff := recentCutoff cfg now
  let score3 :=
    match result.last_updated with
    | some t =>
      if t ≥ cutoff then
        qadd score2 (qadd (mkRat 1 10)
          (qmul (qdiv (((t - cutoff : Int) : ℚ)) (((now - cutoff + 1 : Int) : ℚ))) (mkRat 1 10)))
      else score2
    | none => score2
  { faqId := result.id, row := result, variantReason := variant.reason,
    variantWeight := variant.weight, score := score3 }

/-- RagSearchService.scoreResults (server.js 1386-1418). -/
def scoreResults (cfg : RagConfig) (now : Int) (variant : Variant) (session : Session)
    (results : List Row) : List Candidate :=
  results.map (scoreOne cfg now variant session)

/-- One step of the aggregation loop (server.js 1423-1437): merge the
candidate into the entry of its FAQ id when one exists (maximum score,
appended source reason), append a fresh entry otherwise. -/
def aggInsert : List Agg → Candidate → List Agg
  | [], c => [{ faqId := c.faqId, row := c.row, score := c.score, sources := [c.variantReason] }]
  | e :: rest, c =>
    if e.faqId = c.faqId then
      { e with score := max e.score c.score, sources := e.sources ++ [c.variantReason] } :: rest
    else e :: aggInsert rest c

/-- RagSearchService.aggregateCandidates (server.js 1420-1439). -/
def aggregateCandidates (candidates : List Candidate) : List Agg :=
  candidates.foldl aggInsert []

/-- Stable insertion into a list sorted by non-increasing score: the
incoming element goes in front of equal scores.  sortByScoreDesc below
inserts the later list elements first (foldr), so on ties the earlier
element ends up first, as a stable sort keeps it. -/
def insertDesc (e : Agg) : List Agg → List Agg
  | [] => [e]
  | a :: rest => if e.score ≥ a.score then e :: a :: rest else a :: insertDesc e rest

/-- Descending stable sort by score, modelling
sort((a, b) => b.score - a.score) (Array.prototype.sort is stable and the
comparator is a total preorder on the scores, so the result is the stable
descending order, computed here by insertion). -/
def sortByScoreDesc (l : List Agg) : List Agg := l.foldr insertDesc []

/-- Attachment of the 1-based rank to an aggregated entry at its sorted
position (server.js 1180-1183). -/
def toRanked (ie : Nat × Agg) : Ranked :=
  { faqId := ie.2.faqId, row := ie.2.row, score := ie.2.score,
    sources := ie.2.sources, rank := ie.1 + 1 }

/-- Ranking and selection tail of retrieve (server.js 1177-1193). -/
def buildResult (cfg : RagConfig) (nq : Str) (variants : List Variant)
    (candidates : List Candidate) : RetrieveResult :=
  let aggregated := aggregateCandidates candidates
  let ranked := (sortByScoreDesc aggregated).enum.map toRanked
  let topK := ranked.take cfg.topKResults
  let aboveThreshold := topK.filter (fun c => decide (cfg.minScore ≤ c.score))
  { normalizedQuery := nq, variants := variants, rankedCandidates := ranked,
    topCandidates := if aboveThreshold.isEmpty then topK else aboveThreshold }

/-- Candidate store interface: searchFaqs and searchFaqContent either
resolve to a list of rows or throw (modelled by Except). -/
structure Db where
  searchFaqs : Str → SearchFilters → Except Unit (List Row)
  searchFaqContent : Str → SearchFilters → Except Unit (List Row)

/-- RagSearchService.getCachedResults (server.js 1278-1300): serve from
the cache when possible, otherwise call searchFaqs, cache a successful
result and swallow a thrown error into a null result. -/
def getCachedResults (cfg : RagConfig) (db : Db) (st : CacheService.CacheState (List Row))
    (now : Int) (cacheKey : Str) (query : Str) (filters : SearchFilters) :
    Option (List Row) × CacheService.CacheState (List Row) :=
  match CacheService.get st now cacheKey with
  | (some rows, st1) => (some rows, st1)
  | (none, st1) =>
    match db.searchFaqs query filters with
    | .ok rows => (some rows, CacheService.set st1 now cacheKey rows (some cfg.cacheTtl))
    | .error _ => (none, st1)

/-- Loop of searchFallback (server.js 1306-1323): first fallback filter
variant whose store call succeeds with a nonempty row list; thrown errors
and empty results move to the next variant. -/
def fallbackLoop (db : Db) (query : Str) (limitOverride : Nat) :
    List SearchFilters → Option (List Row)
  | [] => none
  | f :: rest =>
    match db.searchFaqContent query { f with limit := some limitOverride } with
    | .ok (r :: rs) => some (r :: rs)
    | _ => fallbackLoop db query limitOverride rest

/-- RagSearchService.searchFallback (server.js 1302-1326). -/
def searchFallback (cfg : RagConfig) (db : Db) (query : Str) (filters : SearchFilters) :
    Option (List Row) :=
  let limitBase :=
    match filters.limit with
    | some n => if n = 0 then cfg.maxCandidatesPerVariant else n
    | none => cfg.maxCandidatesPerVariant
  let limitOverride := min limitBase cfg.fallbackLimit
  fallbackLoop db query limitOverride (buildFallbackFilterVariants filters)

/-- JavaScript test !results || results.length === 0. -/
def jsNoResults : Option (List Row) → Bool
  | none => true
  | some l => l.isEmpty

/-- Body of the variant loop in retrieve (server.js 1159-1171), threading
the candidate accumulator and the cache state. -/
def collectStep (cfg : RagConfig) (db : Db) (session : Session) (now : Int)
    (st : List Candidate × CacheService.CacheState (List Row)) (variant : Variant) :
    List Candidate × CacheService.CacheState (List Row) :=
  let filters := buildFilters cfg session variant
  let rc := getCachedResults cfg db st.2 now variant.cacheKey variant.query filters
  let results :=
    if jsNoResults rc.1 && variant.allowFallback then
      searchFallback cfg db variant.query filters
    else rc.1
  match results with
  | some (r :: rs) => (st.1 ++ scoreResults cfg now variant session (r :: rs), rc.2)
  | _ => (st.1, rc.2)

/-- RagSearchService.retrieve (server.js 1154-1194); now stands for
Date.now() during the call. -/
def retrieve (cfg : RagConfig) (db : Db) (cache0 : CacheService.CacheState (List Row))
    (now : Int) (query : Str) (session : Session) : Option RetrieveResult :=
  let nq := normalizeQuery query
  let variants := buildQueryVariants cfg nq session
  match (variants.foldl (collectStep cfg db session now) ([], cache0)).1 with
  | [] => none
  | c :: cs => some (buildResult cfg nq variants (c :: cs))

end Rag

/-! ## ChatService enhanced QA matching
(src/service/services/cacheService.js lines 833-1046) -/

namespace ChatService

/-- Payload of a FAQ entry (question and answer may be absent). -/
structure QAData where
  question : Option Str
  answer : Option Str
deriving DecidableEq

/-- One object of the qa_data array; entries whose data field is absent
fail the truthiness guard of the loop.  A null array element is skipped by
the same guard and behaves exactly like an entry with a wrong code, so it
is not modelled separately. -/
structure QAEntry where
  code : Str
  data : Option QAData
deriving DecidableEq

/-- FAQ row passed to the matcher.  qa_data = none models a row whose JSON
failed to parse (the thrown error is caught, logged and the loop moves on);
some entries covers both the array shape and the single-object shape, which
the source wraps into a one-element array. -/
structure FaqRow where
  id : Nat
  qa_data : Option (List QAEntry)
  enhanced_relevance : Option ℚ
  relevance : Option ℚ
deriving DecidableEq

/-- Best match record built by the matcher (cacheService.js 875-881);
an absent question or answer string is modelled as the empty string. -/
structure MatchResult where
  faqId : Nat
  question : Str
  answer : Str
  score : ℚ
  matchType : Str
deriving DecidableEq

/-- Stop-word set of extractQueryWords (cacheService.js 900). -/
def stopWords : List Str :=
  [strOf "le", strOf "la", strOf "les", strOf "un", strOf "une", strOf "des",
   strOf "du", strOf "de", strOf "et", strOf "ou", strOf "à", strOf "au",
   strOf "aux", strOf "ce", strOf "cette", strOf "ces", strOf "comment",
   strOf "que", strOf "qui", strOf "quoi", strOf "où", strOf "quand",
   strOf "pourquoi", strOf "je", strOf "tu", strOf "il", strOf "elle",
   strOf "nous", strOf "vous", strOf "ils", strOf "elles", strOf "puis",
   strOf "peux", strOf "peut", strOf "pouvez", strOf "peuvent"]

/-- ChatService.extractQueryWords (cacheService.js 896-909): map
punctuation to spaces, split on whitespace, keep words longer than two
characters that are not stop words, stem each. -/
def extractQueryWords (query : Str) : List Str :=
  ((splitWsJS (replaceNonWord query)).filter
    (fun w => decide (w.length > 2) && !(decide (w ∈ stopWords)))).map stemWord

/-- Key phrases of calculateExactMatchScore (cacheService.js 919-927). -/
def keyPhrases : List Str :=
  [strOf "contacter le support", strOf "contact support",
   strOf "joindre le support", strOf "appeler le support",
   strOf "comment contacter", strOf "contacter", strOf "puis-je contacter"]

/-- ChatService.calculateExactMatchScore (cacheService.js 914-936). -/
def calculateExactMatchScore (query question : Str) : ℚ :=
  if containsSub question query then 1
  else if containsSub query question then mkRat 9 10
  else if keyPhrases.any (fun phrase =>
      (containsSub query phrase || containsSub phrase query) &&
      (containsSub question (strOf "contacter") || containsSub question (strOf "contact"))) then
    mkRat 9 10
  else 0

/-- Synonym table of ChatService.getSynonyms (cacheService.js 1011-1027). -/
def synonymTable : List (Str × List Str) :=
  [(strOf "contacter", [strOf "contact", strOf "joindre", strOf "appeler", strOf "telephoner", strOf "ecrire", strOf "communication"]),
   (strOf "contact", [strOf "contacter", strOf "joindre", strOf "appeler", strOf "telephoner", strOf "ecrire", strOf "communication"]),
   (strOf "support", [strOf "aide", strOf "assistance", strOf "service", strOf "client", strOf "soutien"]),
   (strOf "aide", [strOf "support", strOf "assistance", strOf "service", strOf "soutien"]),
   (strOf "horaire", [strOf "heure", strOf "ouverture", strOf "fermeture", strOf "disponible", strOf "planning"]),
   (strOf "prix", [strOf "cout", strOf "tarif", strOf "montant", strOf "frais", strOf "facture"]),
   (strOf "probleme", [strOf "souci", strOf "difficulte", strOf "erreur", strOf "bug", strOf "dysfonctionnement"]),
   (strOf "compte", [strOf "profil", strOf "utilisateur", strOf "client", strOf "espace"]),
   (strOf "produit", [strOf "service", strOf "offre", strOf "solution", strOf "prestation"]),
   (strOf "paiement", [strOf "reglement", strOf "facture", strOf "transaction", strOf "versement"]),
   (strOf "inscription", [strOf "enregistrement", strOf "creation", strOf "souscription"]),
   (strOf "connexion", [strOf "login", strOf "authentification", strOf "acces", strOf "identification"]),
   (strOf "joindre", [strOf "contacter", strOf "contact", strOf "appeler", strOf "telephoner"]),
   (strOf "appeler", [strOf "contacter", strOf "contact", strOf "joindre", strOf "telephoner"])]

/-- ChatService.getSynonyms (cacheService.js 1010-1030). -/
def getSynonyms (word : Str) : List Str := (alookup synonymTable word).getD []

/-- ChatService.calculateSemanticScore (cacheService.js 941-960): full
credit for a stemmed word present in the question, 0.8 credit for a
synonym hit, normalized by the query word count. -/
def calculateSemanticScore (queryWords : List Str) (question : Str) : ℚ :=
  if queryWords.isEmpty then 0
  else
    let questionWords := extractQueryWords question
    let macc := queryWords.foldl
      (fun m qw =>
        if qw ∈ questionWords then qadd m 1
        else if (getSynonyms qw).any (fun syn => decide (syn ∈ questionWords)) then
          qadd m (mkRat 4 5)
        else m) 0
    qdiv macc ((queryWords.length : ℕ) : ℚ)

/-- ChatService.calculatePartialMatchScore (cacheService.js 965-976):
fraction of raw whitespace tokens longer than three characters that occur
in the question. -/
def calculatePartScore (query question : Str) : ℚ :=
  let queryWords := splitWsJS query
  let pm := (queryWords.filter (fun w => decide (w.length > 3) && containsSub question w)).length
  if queryWords.length > 0 then qdiv ((pm : ℕ) : ℚ) ((queryWords.length : ℕ) : ℚ) else 0

/-- ChatService.calculateWordOrderScore (cacheService.js 981-996):
fraction of adjacent query word pairs found in the same order in the
question words (indexOf returning -1 is modelled by Option). -/
def calculateWordOrderScore (queryWords : List Str) (question : Str) : ℚ :=
  if queryWords.length < 2 then 0
  else
    let questionWords := extractQueryWords question
    let orderMatches := ((List.range (queryWords.length - 1)).filter
      (fun i =>
        match questionWords.indexOf? (queryWords.getD i []),
              questionWords.indexOf? (queryWords.getD (i + 1) []) with
        | some a, some b => decide (a < b)
        | _, _ => false)).length
    if queryWords.length > 1 then
      qdiv ((orderMatches : ℕ) : ℚ) (((queryWords.length - 1 : ℕ)) : ℚ)
    else 0

/-- ChatService.getMatchType (cacheService.js 1001-1006). -/
def getMatchType (exactScore semanticScore partScore : ℚ) : Str :=
  if exactScore > mkRat 4 5 then strOf "exact"
  else if semanticScore > mkRat 7 10 then strOf "semantic"
  else if partScore > mkRat 3 5 then strOf "partial"
  else strOf "weak"

/-- Composite weighted score of one entry (cacheService.js 859-869). -/
def entryScores (queryLower : Str) (queryWords : List Str) (question : Str) : ℚ × ℚ × ℚ × ℚ :=
  (calculateExactMatchScore queryLower question,
   calculateSemanticScore queryWords question,
   calculatePartScore queryLower question,
   calculateWordOrderScore queryWords question)

/-- Inner loop body of findBestQAMatchEnhanced (cacheService.js 848-885):
score one qa entry of a row and update the running best when the final
score beats it and clears the threshold. -/
def entryStep (thr : ℚ) (queryLower : Str) (queryWords : List Str) (faq : FaqRow)
    (st : Option MatchResult × ℚ) (qaEntry : QAEntry) : Option MatchResult × ℚ :=
  if qaEntry.code = strOf "app.faq_entry" then
    match qaEntry.data with
    | some d =>
      let question := lowerStr (d.question.getD [])
      let answer := d.answer.getD []
      let es := entryScores queryLower queryWords question
      let totalScore := qadd (qadd (qadd (qmul es.1 (mkRat 2 5)) (qmul es.2.1 (mkRat 3 10)))
        (qmul es.2.2.1 (mkRat 1 5))) (qmul es.2.2.2 (mkRat 1 10))
      let dbRelevance := jsOrNum faq.enhanced_relevance faq.relevance 0
      let finalScore := qadd totalScore (qmul dbRelevance (mkRat 1 10))
      if finalScore > st.2 && finalScore ≥ thr then
        (some { faqId := faq.id, question := d.question.getD [], answer := answer,
                score := finalScore, matchType := getMatchType es.1 es.2.1 es.2.2.1 },
         finalScore)
      else st
    | none => st
  else st

/-- Row loop body of findBestQAMatchEnhanced: a row whose qa_data failed to
parse is skipped (the catch logs and continues), otherwise every entry of
the row is scored. -/
def rowStep (thr : ℚ) (queryLower : Str) (queryWords : List Str)
    (st : Option MatchResult × ℚ) (faq : FaqRow) : Option MatchResult × ℚ :=
  match faq.qa_data with
  | none => st
  | some entries => entries.foldl (entryStep thr queryLower queryWords faq) st

/-- ChatService.findBestQAMatchEnhanced (cacheService.js 833-894);
cfgThreshold models this.config.searchThreshold, defaulted to 0.3 by the
|| when falsy. -/
def findBestQAMatchEnhanced (cfgThreshold : Option ℚ) (query : Str)
    (faqResults : List FaqRow) : Option MatchResult :=
  let queryLower := trimStr (lowerStr query)
  let queryWords := extractQueryWords queryLower
  let thr := match truthyNum cfgThreshold with | some t => t | none => mkRat 3 10
  (faqResults.foldl (rowStep thr queryLower queryWords) (none, 0)).1

end ChatService

end Myleo

/-! ## Supporting lemmas -/

namespace Myleo

/-- The first-match loop of stemWord computes the find?-based
characterization. -/
theorem stemLoop_eq_spec (w : Str) (table : List Str) :
    stemLoop w table = stemBySpec table w := by
  induction table with
  | nil => rfl
  | cons suf rest ih =>
    unfold stemLoop stemBySpec
    rw [List.find?]
    by_cases h : (suf.isSuffixOf w && decide (w.length > suf.length + 2)) = true
    · simp [h]
    · simp only [h]
      simpa [stemBySpec] using ih

/-- A stripped stem keeps at least three characters. -/
theorem stemLoop_length (w : Str) (table : List Str) :
    stemLoop w table = w ∨ 3 ≤ (stemLoop w table).length := by
  induction table with
  | nil => exact Or.inl rfl
  | cons suf rest ih =>
    unfold stemLoop
    by_cases h : (suf.isSuffixOf w && decide (w.length > suf.length + 2)) = true
    · simp only [h, if_true]
      right
      have hlen : w.length > suf.length + 2 := by
        have := (Bool.and_eq_true _ _).mp h
        exact of_decide_eq_true this.2
      rw [List.length_take]
      omega
    · simp only [h, if_false]
      exact ih

/-- Membership in trimStr implies membership in the string. -/
theorem mem_trimStr {c : Char} {s : Str} (h : c ∈ trimStr s) : c ∈ s := by
  unfold trimStr at h
  rw [List.mem_reverse] at h
  have h1 := (List.dropWhile_sublist (l := (s.dropWhile isWsChar).reverse) isWsChar).mem h
  rw [List.mem_reverse] at h1
  exact (List.dropWhile_sublist isWsChar).mem h1

/-- Characters of the punctuation replacement stage are spaces, word
characters or whitespace. -/
theorem mem_replaceNonWord {c : Char} {s : Str} (h : c ∈ replaceNonWord s) :
    c = ' ' ∨ isWordChar c = true ∨ isWsChar c = true := by
  unfold replaceNonWord at h
  rw [List.mem_map] at h
  obtain ⟨d, _, hd⟩ := h
  by_cases hw : (!(isWordChar d) && !(isWsChar d)) = true
  · rw [hw, if_pos rfl] at hd
    exact Or.inl hd.symm
  · simp only [hw] at hd
    rw [if_neg (by simp [hw])] at hd
    subst hd
    rcases Bool.and_eq_false_iff.mp (Bool.eq_false_iff.mpr hw) with h1 | h1
    · exact Or.inr (Or.inl (by simpa using h1))
    · exact Or.inr (Or.inr (by simpa using h1))

/-- Characters of the whitespace collapsing stage are spaces or
non-whitespace characters of the input. -/
theorem mem_collapseWsAux {c : Char} : ∀ (b : Bool) (s : Str),
    c ∈ collapseWsAux b s → c = ' ' ∨ (c ∈ s ∧ isWsChar c = false) := by
  intro b s
  induction s generalizing b with
  | nil => intro h; cases h
  | cons d rest ih =>
    intro h
    unfold collapseWsAux at h
    by_cases hd : isWsChar d = true
    · rw [if_pos hd] at h
      cases b with
      | true =>
        rcases ih true (by simpa using h) with h1 | h1
        · exact Or.inl h1
        · exact Or.inr ⟨List.mem_cons_of_mem d h1.1, h1.2⟩
      | false =>
        simp only [Bool.false_eq_true, if_false] at h
        rcases List.mem_cons.mp h with h1 | h1
        · exact Or.inl h1
        · rcases ih true h1 with h2 | h2
          · exact Or.inl h2
          · exact Or.inr ⟨List.mem_cons_of_mem d h2.1, h2.2⟩
    · rw [if_neg hd] at h
      rcases List.mem_cons.mp h with h1 | h1
      · subst h1
        exact Or.inr ⟨List.mem_cons_self c rest, Bool.eq_false_iff.mpr hd⟩
      · rcases ih false h1 with h2 | h2
        · exact Or.inl h2
        · exact Or.inr ⟨List.mem_cons_of_mem d h2.1, h2.2⟩

/-- Every character of a normalized query is a word character or a single
space. -/
theorem normalizeQuery_chars {c : Char} {s : Str} (h : c ∈ Rag.normalizeQuery s) :
    isWordChar c = true ∨ c = ' ' := by
  unfold Rag.normalizeQuery at h
  have h1 := mem_trimStr h
  rcases mem_collapseWsAux false _ h1 with h2 | h2
  · exact Or.inr h2
  · rcases mem_replaceNonWord h2.1 with h3 | h3 | h3
    · exact Or.inr h3
    · exact Or.inl h3
    · rw [h3] at h2
      cases h2.2

end Myleo

/-! ## Claim theorems -/

namespace Myleo

/-- C5, counterexample: on the word pouvoir both stemmers strip the first
matching table suffix ir, giving pouvo, while the longest qualifying table
suffix is oir, whose removal would give pouv; the claimed longest-suffix
rule disagrees with the code. -/
theorem C5_counterexample :
    Database.stemWord (strOf "pouvoir") = strOf "pouvo" ∧
    ChatService.stemWord (strOf "pouvoir") = strOf "pouvo" ∧
    stemByLongest Database.frenchSuffixes (strOf "pouvoir") = strOf "pouv" ∧
    stemByLongest ChatService.frenchSuffixes (strOf "pouvoir") = strOf "pouv" ∧
    strOf "pouvo" ≠ strOf "pouv" := by
  refine ⟨by decide, by decide, by decide, by decide, by decide⟩

/-- C5, amended: stem(word) strips the first table suffix (in table order,
which is not always the longest matching one) that matches the end of the
word with word.length > suffix.length + 2, so the stem keeps at least
three characters; the word is returned unchanged when no suffix
qualifies.  Both the Database and the ChatService stemmer follow this
rule, each with its own table. -/
theorem C5_amended (w : Str) :
    Database.stemWord w = stemBySpec Database.frenchSuffixes w ∧
    ChatService.stemWord w = stemBySpec ChatService.frenchSuffixes w ∧
    (Database.stemWord w = w ∨ 3 ≤ (Database.stemWord w).length) ∧
    (ChatService.stemWord w = w ∨ 3 ≤ (ChatService.stemWord w).length) :=
  ⟨stemLoop_eq_spec w _, stemLoop_eq_spec w _, stemLoop_length w _, stemLoop_length w _⟩

/-- C10: the query normalization of the orchestrator maps every character
that is neither an ASCII word character nor whitespace to a space, accented
letters included: every character of a normalized query is an ASCII word
character or a space, and the word problème comes out as probl me, which
the single-space split of expandSynonyms turns into the two tokens probl
and me. -/
theorem C10_normalizeQuery (s : Str) (c : Char) (h : c ∈ Rag.normalizeQuery s) :
    (isWordChar c = true ∨ c = ' ') ∧
    Rag.normalizeQuery (strOf "problème") = strOf "probl me" ∧
    (Rag.normalizeQuery (strOf "problème")).splitOn ' ' = [strOf "probl", strOf "me"] :=
  ⟨normalizeQuery_chars h, by decide, by decide⟩

/-- C10, witness at the letter b of problème. -/
theorem C10_witness :
    'b' ∈ Rag.normalizeQuery (strOf "problème") ∧
    (isWordChar 'b' = true ∨ 'b' = ' ') :=
  ⟨by decide, (C10_normalizeQuery (strOf "problème") 'b' (by decide)).1⟩

end Myleo

namespace Myleo

/-- Recency term of the scoring formula, written from the spec: 0.1 plus
0.1 scaled by the position of the update inside the recency window, when
the parsed timestamp is at or after the cutoff. -/
def specRecency (cfg : Rag.RagConfig) (now : Int) (r : Rag.Row) : ℚ :=
  match r.last_updated with
  | some t =>
    if t ≥ Rag.recentCutoff cfg now then
      1/10 + (((t - Rag.recentCutoff cfg now : Int) : ℚ) /
        ((now - Rag.recentCutoff cfg now + 1 : Int) : ℚ)) * (1/10)
    else 0
  | none => 0

/-- Amended scoring formula, written from the spec sentence with the ||
semantics of the code: truthy enhanced relevance, else truthy relevance,
else 0.2, times the variant weight, plus the two boosts (each guarded by a
truthy session field and strict equality with the row field), plus the
recency term. -/
def specScore (cfg : Rag.RagConfig) (now : Int) (v : Rag.Variant) (s : Rag.Session)
    (r : Rag.Row) : ℚ :=
  jsOrNum r.enhanced_relevance r.relevance (1/5) * v.weight
    + (if jsTruthyStr s.productCode && decide (r.product_ref = s.productCode) then
        cfg.productBoost else 0)
    + (if jsTruthyStr s.rubrique && decide (r.rubrique = s.rubrique) then
        cfg.rubriqueBoost else 0)
    + specRecency cfg now r

/-- Scoring formula of the original claim, with nullish-coalescing
semantics on the relevance fields (zero values are kept). -/
def claimScoreC1 (cfg : Rag.RagConfig) (now : Int) (v : Rag.Variant) (s : Rag.Session)
    (r : Rag.Row) : ℚ :=
  (r.enhanced_relevance.getD (r.relevance.getD (1/5))) * v.weight
    + (if r.product_ref = s.productCode then cfg.productBoost else 0)
    + (if r.rubrique = s.rubrique then cfg.rubriqueBoost else 0)
    + specRecency cfg now r

/-- The score of a single row equals the amended formula. -/
theorem scoreOne_eq_spec (cfg : Rag.RagConfig) (now : Int) (v : Rag.Variant)
    (s : Rag.Session) (r : Rag.Row) :
    Rag.scoreOne cfg now v s r =
      { faqId := r.id, row := r, variantReason := v.reason, variantWeight := v.weight,
        score := specScore cfg now v s r } := by
  have hm : mkRat 1 5 = (1/5 : ℚ) := by
    rw [Rat.mkRat_eq_divInt, Rat.divInt_eq_div]
    norm_num
  have hm10 : mkRat 1 10 = (1/10 : ℚ) := by
    rw [Rat.mkRat_eq_divInt, Rat.divInt_eq_div]
    norm_num
  unfold Rag.scoreOne specScore specRecency
  simp only [qmul_eq, qadd_eq, qdiv_eq, hm, hm10, Rag.Candidate.mk.injEq, true_and]
  cases r.last_updated with
  | none =>
    split_ifs <;> ring
  | some t =>
    by_cases ht : t ≥ Rag.recentCutoff cfg now <;>
      simp only [ht, if_true, if_false] <;> split_ifs <;> ring

end Myleo

namespace Myleo

/-- C1, amended: the orchestrator scores each row as (truthy enhanced
relevance, else truthy relevance, else 0.2; a zero value falls through the
|| chain) times the variant weight, plus the product boost when the
session has a truthy product code equal to the row product_ref, plus the
category boost when the session has a truthy rubrique equal to the row
rubrique, plus the recency term (0.1 plus up to 0.1 linearly scaled) when
the parsed last_updated is at or after the window cutoff. -/
theorem C1_amended (cfg : Rag.RagConfig) (now : Int) (v : Rag.Variant) (s : Rag.Session)
    (rows : List Rag.Row) :
    Rag.scoreResults cfg now v s rows =
      rows.map (fun r =>
        { faqId := r.id, row := r, variantReason := v.reason, variantWeight := v.weight,
          score := specScore cfg now v s r }) := by
  unfold Rag.scoreResults
  exact List.map_congr_left (fun r _ => scoreOne_eq_spec cfg now v s r)

/-- Supporting data of the C1 counterexample. -/
def c1variant : Rag.Variant :=
  ⟨strOf "q", 1, strOf "base", ⟨none, none, none⟩, true, strOf "k"⟩

/-- Session of the C1 counterexample; its product code and rubrique match
no row field, so both boosts are off under both readings. -/
def c1session : Rag.Session := ⟨none, some (strOf "y"), some (strOf "x")⟩

/-- Row of the C1 counterexample: enhanced_relevance is 0 (present but
falsy), relevance is one half. -/
def c1row : Rag.Row :=
  ⟨1, some (strOf "z"), some (strOf "z"), some 0, some (mkRat 1 2), none⟩

/-- C1, counterexample: on a row whose enhanced relevance is 0 and whose
relevance is one half, the code scores one half (the || chain skips the
falsy 0), while the claimed nullish-coalescing formula scores 0. -/
theorem C1_counterexample :
    (Rag.scoreResults Rag.defaultConfig 0 c1variant c1session [c1row]).map
      Rag.Candidate.score = [mkRat 1 2] ∧
    claimScoreC1 Rag.defaultConfig 0 c1variant c1session c1row = 0 ∧
    (mkRat 1 2 : ℚ) ≠ 0 := by
  refine ⟨by decide, ?_, by decide⟩
  norm_num [claimScoreC1, c1row, c1variant, c1session, specRecency, strOf,
    Rag.defaultConfig]
  rw [if_neg (by decide), if_neg (by decide)]
  norm_num

end Myleo

namespace Myleo

namespace Rag

/-- Base filter object of buildQueryVariants. -/
def baseFiltersOf (s : Session) : VFilters := ⟨s.languageCode, s.rubrique, s.productCode⟩

/-- Variant constructor shared by every push of buildQueryVariants. -/
def mkVar (q : Str) (w : ℚ) (r : Str) (f : VFilters) (fb : Bool) : Variant :=
  { query := q, weight := w, reason := r, filters := f, allowFallback := fb,
    cacheKey := buildCacheKey q f }

/-- Synonym variant at enumeration position iv. -/
def synVar (cfg : RagConfig) (s : Session) (iv : Nat × Str) : Variant :=
  mkVar iv.2 (max (mkRat 3 10) (qsub 1 (qmul ((iv.1 + 1 : ℕ) : ℚ) cfg.variantDecay)))
    (strOf "synonym") (baseFiltersOf s) (decide (iv.1 = 0))

/-- The full candidate sequence offered to pushVariant, before the
maxQueryVariants truncation. -/
def fullVariantList (cfg : RagConfig) (q : Str) (s : Session) : List Variant :=
  mkVar q 1 (strOf "base") (baseFiltersOf s) true ::
    ((if jsTruthyStr s.productCode then
        [mkVar (trimStr (s.productCode.getD [] ++ [' '] ++ q)) (qsub 1 cfg.variantDecay)
          (strOf "product") { baseFiltersOf s with productCode := s.productCode } true]
      else []) ++
     (if jsTruthyStr s.rubrique && decide (s.rubrique ≠ some (strOf "general")) then
        [mkVar (trimStr (replaceFirst (strOf "_") (strOf " ") (s.rubrique.getD []) ++ [' '] ++ q))
          (qsub 1 cfg.variantDecay) (strOf "rubrique")
          { baseFiltersOf s with rubrique := s.rubrique } false]
      else []) ++
     (expandSynonyms q).enum.map (synVar cfg s))

/-- The guarded push, folded over a sequence, keeps the accumulator and
appends the prefix of the sequence that fits under maxQueryVariants. -/
theorem foldl_pushVariant (cfg : RagConfig) (l : List Variant) :
    ∀ acc : List Variant,
      l.foldl (pushVariant cfg) acc = acc ++ l.take (cfg.maxQueryVariants - acc.length) := by
  induction l with
  | nil => intro acc; simp
  | cons v l ih =>
    intro acc
    rw [List.foldl_cons, ih (pushVariant cfg acc v)]
    unfold pushVariant
    by_cases h : acc.length ≥ cfg.maxQueryVariants
    · rw [if_pos h]
      have h0 : cfg.maxQueryVariants - acc.length = 0 := Nat.sub_eq_zero_of_le h
      rw [h0]
      simp [h0]
    · rw [if_neg h]
      have h2 : cfg.maxQueryVariants - acc.length = (cfg.maxQueryVariants - (acc.length + 1)) + 1 := by
        omega
      rw [h2, List.take_succ_cons, List.length_append, List.append_assoc]
      simp

/-- buildQueryVariants performs the guarded pushes over the full candidate
sequence. -/
theorem buildQueryVariants_foldl (cfg : RagConfig) (q : Str) (s : Session) :
    buildQueryVariants cfg q s = (fullVariantList cfg q s).foldl (pushVariant cfg) [] := by
  unfold buildQueryVariants fullVariantList
  rw [List.foldl_cons, List.foldl_append, List.foldl_append, List.foldl_map]
  simp only [Bool.and_eq_true, decide_eq_true_eq]
  by_cases h1 : jsTruthyStr s.productCode = true <;>
    by_cases h2 : jsTruthyStr s.rubrique = true ∧ ¬s.rubrique = some (strOf "general") <;>
    simp [h1, h2, mkVar, synVar, baseFiltersOf]

/-- buildQueryVariants is the truncation of the full candidate sequence. -/
theorem buildQueryVariants_eq (cfg : RagConfig) (q : Str) (s : Session) :
    buildQueryVariants cfg q s = (fullVariantList cfg q s).take cfg.maxQueryVariants := by
  rw [buildQueryVariants_foldl, foldl_pushVariant]
  simp

end Rag

end Myleo

namespace Myleo

namespace Rag

/-- Synonym weight at enumeration index i. -/
def synWeight (cfg : RagConfig) (i : ℕ) : ℚ :=
  max (mkRat 3 10) (qsub 1 (qmul ((i + 1 : ℕ) : ℚ) cfg.variantDecay))

/-- Weights of the full candidate sequence: 1, the decayed weight for each
enabled context variant, then the synonym weights in enumeration order. -/
theorem fullVariantList_weights (cfg : RagConfig) (q : Str) (s : Session) :
    (fullVariantList cfg q s).map Variant.weight =
      1 :: ((if jsTruthyStr s.productCode then [qsub 1 cfg.variantDecay] else []) ++
        (if jsTruthyStr s.rubrique && decide (s.rubrique ≠ some (strOf "general")) then
            [qsub 1 cfg.variantDecay] else []) ++
        (List.range (expandSynonyms q).length).map (synWeight cfg)) := by
  unfold fullVariantList
  rw [List.map_cons, List.map_append, List.map_append]
  have hA : ((if jsTruthyStr s.productCode then
      [mkVar (trimStr (s.productCode.getD [] ++ [' '] ++ q)) (qsub 1 cfg.variantDecay)
        (strOf "product") { baseFiltersOf s with productCode := s.productCode } true]
      else []) : List Variant).map Variant.weight =
      (if jsTruthyStr s.productCode then [qsub 1 cfg.variantDecay] else []) := by
    split_ifs <;> simp [mkVar]
  have hB : ((if jsTruthyStr s.rubrique && decide (s.rubrique ≠ some (strOf "general")) then
      [mkVar (trimStr (replaceFirst (strOf "_") (strOf " ") (s.rubrique.getD []) ++ [' '] ++ q))
        (qsub 1 cfg.variantDecay) (strOf "rubrique")
        { baseFiltersOf s with rubrique := s.rubrique } false]
      else []) : List Variant).map Variant.weight =
      (if jsTruthyStr s.rubrique && decide (s.rubrique ≠ some (strOf "general")) then
        [qsub 1 cfg.variantDecay] else []) := by
    split_ifs <;> simp [mkVar]
  have hC : ((expandSynonyms q).enum.map (synVar cfg s)).map Variant.weight =
      (List.range (expandSynonyms q).length).map (synWeight cfg) :=
    calc ((expandSynonyms q).enum.map (synVar cfg s)).map Variant.weight
        = (expandSynonyms q).enum.map (fun iv => synWeight cfg iv.1) := by
          rw [List.map_map]
          exact List.map_congr_left (fun iv _ => rfl)
      _ = ((expandSynonyms q).enum.map Prod.fst).map (synWeight cfg) := by
          rw [List.map_map]
          exact List.map_congr_left (fun iv _ => rfl)
      _ = (List.range (expandSynonyms q).length).map (synWeight cfg) := by
          rw [List.enum_map_fst]
  rw [hA, hB, hC]
  rfl

/-- The weights of the full candidate sequence are non-increasing when the
decay lies between 0 and 0.7. -/
theorem weights_pairwise (cfg : RagConfig) (q : Str) (s : Session)
    (h0 : 0 ≤ cfg.variantDecay) (h7 : cfg.variantDecay ≤ mkRat 7 10) :
    ((fullVariantList cfg q s).map Variant.weight).Pairwise (· ≥ ·) := by
  have hm710 : (mkRat 7 10 : ℚ) = 7 / 10 := by
    rw [Rat.mkRat_eq_divInt, Rat.divInt_eq_div]; norm_num
  have hm310 : (mkRat 3 10 : ℚ) = 3 / 10 := by
    rw [Rat.mkRat_eq_divInt, Rat.divInt_eq_div]; norm_num
  rw [hm710] at h7
  rw [fullVariantList_weights]
  set d := cfg.variantDecay with hd
  have hgval : ∀ i : ℕ, synWeight cfg i = max (3/10 : ℚ) (1 - ((i + 1 : ℕ) : ℚ) * d) := by
    intro i
    rw [synWeight]
    simp only [qsub_eq, qmul_eq, hm310]
  have hgle : ∀ i : ℕ, synWeight cfg i ≤ 1 - d := by
    intro i
    rw [hgval i]
    apply max_le
    · linarith
    · have h1 : (1 : ℚ) ≤ ((i + 1 : ℕ) : ℚ) := by exact_mod_cast Nat.le_add_left 1 i
      nlinarith
  have hganti : ∀ i j : ℕ, i ≤ j → synWeight cfg j ≤ synWeight cfg i := by
    intro i j hij
    rw [hgval i, hgval j]
    apply max_le_max le_rfl
    have hc : ((i + 1 : ℕ) : ℚ) ≤ ((j + 1 : ℕ) : ℚ) := by exact_mod_cast Nat.succ_le_succ hij
    nlinarith
  have hdle1 : 1 - d ≤ (1 : ℚ) := by linarith
  have hqs : qsub 1 d = 1 - d := qsub_eq 1 d
  have hmemA : ∀ x : ℚ, x ∈ (if jsTruthyStr s.productCode then [qsub 1 d] else []) → x = 1 - d := by
    split_ifs <;> simp [hqs]
  have hmemB : ∀ x : ℚ,
      x ∈ (if jsTruthyStr s.rubrique && decide (s.rubrique ≠ some (strOf "general")) then
        [qsub 1 d] else []) → x = 1 - d := by
    split_ifs <;> simp [hqs]
  have hmemC : ∀ x : ℚ, x ∈ (List.range (expandSynonyms q).length).map (synWeight cfg) →
      ∃ i, x = synWeight cfg i := by
    intro x hx
    rcases List.mem_map.mp hx with ⟨i, _, rfl⟩
    exact ⟨i, rfl⟩
  have htail : ∀ x : ℚ,
      x ∈ ((if jsTruthyStr s.productCode then [qsub 1 d] else []) ++
        (if jsTruthyStr s.rubrique && decide (s.rubrique ≠ some (strOf "general")) then
          [qsub 1 d] else []) ++
        (List.range (expandSynonyms q).length).map (synWeight cfg)) → x ≤ 1 - d := by
    intro x hx
    rcases List.mem_append.mp hx with hAB | hC
    · rcases List.mem_append.mp hAB with hA | hB
      · exact le_of_eq (hmemA x hA)
      · exact le_of_eq (hmemB x hB)
    · rcases hmemC x hC with ⟨i, rfl⟩
      exact hgle i
  constructor
  · intro x hx
    exact le_trans (htail x hx) hdle1
  · rw [List.pairwise_append]
    refine ⟨?_, ?_, ?_⟩
    · rw [List.pairwise_append]
      refine ⟨?_, ?_, ?_⟩
      · split_ifs <;> simp
      · split_ifs <;> simp
      · intro a ha b hb
        rw [hmemA a ha, hmemB b hb]
    · rw [List.pairwise_map]
      exact (List.pairwise_lt_range _).imp (fun hij => hganti _ _ (le_of_lt hij))
    · intro a ha b hb
      rcases hmemC b hb with ⟨i, rfl⟩
      rcases List.mem_append.mp ha with hA | hB
      · rw [hmemA a hA]; exact hgle i
      · rw [hmemB a hB]; exact hgle i

end Rag

/-- C3, counterexample: with a session carrying both a product code and a
non-general rubrique, the first three variant weights are 1, 0.85, 0.85;
the product and rubrique variants share the weight 1 - decay, so the
weights do not strictly decrease with generation order. -/
theorem C3_counterexample :
    ((Rag.buildQueryVariants Rag.defaultConfig (strOf "x")
        ⟨none, some (strOf "billing"), some (strOf "p")⟩).map Rag.Variant.weight
      = [1, mkRat 17 20, mkRat 17 20]) ∧
    ¬ ((Rag.buildQueryVariants Rag.defaultConfig (strOf "x")
        ⟨none, some (strOf "billing"), some (strOf "p")⟩).map Rag.Variant.weight).Pairwise
        (· > ·) := by
  exact ⟨by decide, by decide⟩

/-- C3, amended: for every query and session, with a decay between 0 and
0.7 and at least one variant allowed, the weights of buildQueryVariants
are non-increasing (not strictly decreasing: the product and rubrique
variants share the weight 1 - decay) in generation order, and the first
variant is the base one with weight 1.0 and allowFallback true. -/
theorem C3_amended (cfg : Rag.RagConfig) (q : Str) (s : Rag.Session)
    (h0 : 0 ≤ cfg.variantDecay) (h7 : cfg.variantDecay ≤ mkRat 7 10)
    (hm : 1 ≤ cfg.maxQueryVariants) :
    ((Rag.buildQueryVariants cfg q s).map Rag.Variant.weight).Pairwise (· ≥ ·) ∧
    ((Rag.buildQueryVariants cfg q s).map Rag.Variant.weight).head? = some 1 ∧
    ((Rag.buildQueryVariants cfg q s).map Rag.Variant.reason).head? = some (strOf "base") ∧
    ((Rag.buildQueryVariants cfg q s).map Rag.Variant.allowFallback).head? = some true := by
  obtain ⟨m, hm'⟩ : ∃ m, cfg.maxQueryVariants = m + 1 := ⟨cfg.maxQueryVariants - 1, by omega⟩
  have hcons : Rag.buildQueryVariants cfg q s =
      Rag.mkVar q 1 (strOf "base") (Rag.baseFiltersOf s) true ::
        (((if jsTruthyStr s.productCode then
            [Rag.mkVar (trimStr (s.productCode.getD [] ++ [' '] ++ q)) (qsub 1 cfg.variantDecay)
              (strOf "product") { Rag.baseFiltersOf s with productCode := s.productCode } true]
          else []) ++
         (if jsTruthyStr s.rubrique && decide (s.rubrique ≠ some (strOf "general")) then
            [Rag.mkVar (trimStr (replaceFirst (strOf "_") (strOf " ") (s.rubrique.getD []) ++ [' '] ++ q))
              (qsub 1 cfg.variantDecay) (strOf "rubrique")
              { Rag.baseFiltersOf s with rubrique := s.rubrique } false]
          else []) ++
         (Rag.expandSynonyms q).enum.map (Rag.synVar cfg s)).take m) := by
    rw [Rag.buildQueryVariants_eq]
    unfold Rag.fullVariantList
    rw [hm', List.take_succ_cons]
  refine ⟨?_, ?_, ?_, ?_⟩
  · have hsub : ((Rag.buildQueryVariants cfg q s).map Rag.Variant.weight).Sublist
        ((Rag.fullVariantList cfg q s).map Rag.Variant.weight) := by
      rw [Rag.buildQueryVariants_eq, List.map_take]
      exact List.take_sublist _ _
    exact List.Pairwise.sublist hsub (Rag.weights_pairwise cfg q s h0 h7)
  · rw [hcons]; rfl
  · rw [hcons]; rfl
  · rw [hcons]; rfl

/-- C3, witness: at the default configuration, a session with a product
code and a billing rubrique, and the query x. -/
theorem C3_witness :
    ((Rag.buildQueryVariants Rag.defaultConfig (strOf "x")
        ⟨none, some (strOf "billing"), some (strOf "p")⟩).map Rag.Variant.weight).Pairwise
      (· ≥ ·) ∧
    ((Rag.buildQueryVariants Rag.defaultConfig (strOf "x")
        ⟨none, some (strOf "billing"), some (strOf "p")⟩).map Rag.Variant.weight).head? =
      some 1 :=
  ⟨(C3_amended Rag.defaultConfig (strOf "x") ⟨none, some (strOf "billing"), some (strOf "p")⟩
      (by decide) (by decide) (by decide)).1,
   (C3_amended Rag.defaultConfig (strOf "x") ⟨none, some (strOf "billing"), some (strOf "p")⟩
      (by decide) (by decide) (by decide)).2.1⟩

end Myleo

namespace Myleo

namespace Rag

/-- Prefix of the full candidate sequence before the synonym variants. -/
def preList (cfg : RagConfig) (q : Str) (s : Session) : List Variant :=
  mkVar q 1 (strOf "base") (baseFiltersOf s) true ::
    ((if jsTruthyStr s.productCode then
        [mkVar (trimStr (s.productCode.getD [] ++ [' '] ++ q)) (qsub 1 cfg.variantDecay)
          (strOf "product") { baseFiltersOf s with productCode := s.productCode } true]
      else []) ++
     (if jsTruthyStr s.rubrique && decide (s.rubrique ≠ some (strOf "general")) then
        [mkVar (trimStr (replaceFirst (strOf "_") (strOf " ") (s.rubrique.getD []) ++ [' '] ++ q))
          (qsub 1 cfg.variantDecay) (strOf "rubrique")
          { baseFiltersOf s with rubrique := s.rubrique } false]
      else []))

/-- The full candidate sequence splits into the context prefix and the
synonym variants. -/
theorem fullVariantList_split (cfg : RagConfig) (q : Str) (s : Session) :
    fullVariantList cfg q s = preList cfg q s ++ (expandSynonyms q).enum.map (synVar cfg s) := by
  unfold fullVariantList preList
  rw [List.cons_append]

/-- No variant of the context prefix carries the synonym reason. -/
theorem preList_no_syn (cfg : RagConfig) (q : Str) (s : Session) :
    ∀ v ∈ preList cfg q s, ¬(v.reason = strOf "synonym") := by
  intro v hv
  unfold preList at hv
  rcases List.mem_cons.mp hv with h | h
  · subst h
    simp [mkVar, strOf]
  · rcases List.mem_append.mp h with h1 | h1
    · by_cases hc : jsTruthyStr s.productCode = true
      · rw [if_pos hc] at h1
        rcases List.mem_singleton.mp h1 with rfl
        simp [mkVar, strOf]
      · rw [if_neg hc] at h1
        cases h1
    · by_cases hc : (jsTruthyStr s.rubrique && decide (s.rubrique ≠ some (strOf "general"))) = true
      · rw [if_pos hc] at h1
        rcases List.mem_singleton.mp h1 with rfl
        simp [mkVar, strOf]
      · rw [if_neg hc] at h1
        cases h1

/-- The synonym-reason variants of buildQueryVariants are exactly the
truncated synonym sequence. -/
theorem buildQueryVariants_filter_syn (cfg : RagConfig) (q : Str) (s : Session) :
    (buildQueryVariants cfg q s).filter (fun v => decide (v.reason = strOf "synonym")) =
      ((expandSynonyms q).enum.map (synVar cfg s)).take
        (cfg.maxQueryVariants - (preList cfg q s).length) := by
  rw [buildQueryVariants_eq, fullVariantList_split, List.take_append_eq_append_take,
    List.filter_append]
  have h1 : ((preList cfg q s).take cfg.maxQueryVariants).filter
      (fun v => decide (v.reason = strOf "synonym")) = [] := by
    rw [List.filter_eq_nil_iff]
    intro v hv
    have hvmem : v ∈ preList cfg q s := (List.take_sublist _ _).subset hv
    simpa using preList_no_syn cfg q s v hvmem
  have h2 : (((expandSynonyms q).enum.map (synVar cfg s)).take
      (cfg.maxQueryVariants - (preList cfg q s).length)).filter
      (fun v => decide (v.reason = strOf "synonym")) =
      ((expandSynonyms q).enum.map (synVar cfg s)).take
        (cfg.maxQueryVariants - (preList cfg q s).length) := by
    rw [List.filter_eq_self]
    intro v hv
    have hvmem : v ∈ (expandSynonyms q).enum.map (synVar cfg s) :=
      (List.take_sublist _ _).subset hv
    rcases List.mem_map.mp hvmem with ⟨iv, _, rfl⟩
    simp [synVar, mkVar]
  rw [h1, h2, List.nil_append]

end Rag

/-- C4: for every query and session (with the decay between 0 and 0.7 and
at least one variant allowed, as under the defaults), buildQueryVariants
returns at most maxQueryVariants entries with non-increasing weights; the
first entry has weight 1.0 and reason base, and the i-th synonym variant
(0-based) has weight max(0.3, 1 - (i + 1) * decay). -/
theorem C4_variants (cfg : Rag.RagConfig) (q : Str) (s : Rag.Session)
    (h0 : 0 ≤ cfg.variantDecay) (h7 : cfg.variantDecay ≤ mkRat 7 10)
    (hm : 1 ≤ cfg.maxQueryVariants) :
    (Rag.buildQueryVariants cfg q s).length ≤ cfg.maxQueryVariants ∧
    ((Rag.buildQueryVariants cfg q s).map Rag.Variant.weight).Pairwise (· ≥ ·) ∧
    ((Rag.buildQueryVariants cfg q s).map Rag.Variant.weight).head? = some 1 ∧
    ((Rag.buildQueryVariants cfg q s).map Rag.Variant.reason).head? = some (strOf "base") ∧
    ∀ (i : ℕ) (v : Rag.Variant),
      ((Rag.buildQueryVariants cfg q s).filter
        (fun v => decide (v.reason = strOf "synonym")))[i]? = some v →
      v.weight = max (3/10 : ℚ) (1 - ((i + 1 : ℕ) : ℚ) * cfg.variantDecay) := by
  have hm310 : (mkRat 3 10 : ℚ) = 3 / 10 := by
    rw [Rat.mkRat_eq_divInt, Rat.divInt_eq_div]; norm_num
  obtain ⟨m, hm'⟩ : ∃ m, cfg.maxQueryVariants = m + 1 := ⟨cfg.maxQueryVariants - 1, by omega⟩
  refine ⟨?_, ?_, ?_, ?_, ?_⟩
  · rw [Rag.buildQueryVariants_eq, List.length_take]
    exact min_le_left _ _
  · have hsub : ((Rag.buildQueryVariants cfg q s).map Rag.Variant.weight).Sublist
        ((Rag.fullVariantList cfg q s).map Rag.Variant.weight) := by
      rw [Rag.buildQueryVariants_eq, List.map_take]
      exact List.take_sublist _ _
    exact List.Pairwise.sublist hsub (Rag.weights_pairwise cfg q s h0 h7)
  · rw [Rag.buildQueryVariants_eq]
    unfold Rag.fullVariantList
    rw [hm', List.take_succ_cons]
    rfl
  · rw [Rag.buildQueryVariants_eq]
    unfold Rag.fullVariantList
    rw [hm', List.take_succ_cons]
    rfl
  · intro i v hv
    rw [Rag.buildQueryVariants_filter_syn, List.getElem?_take] at hv
    by_cases hik : i < cfg.maxQueryVariants - (Rag.preList cfg q s).length
    · rw [if_pos hik, List.getElem?_map, List.getElem?_enum] at hv
      cases hes : (Rag.expandSynonyms q)[i]? with
      | none => rw [hes] at hv; cases hv
      | some a =>
        rw [hes] at hv
        simp only [Option.map_some'] at hv
        have hv2 : v = Rag.synVar cfg s (i, a) := (Option.some.injEq _ _).mp hv |>.symm
        rw [hv2]
        show Rag.synWeight cfg i = _
        rw [Rag.synWeight]
        simp only [qsub_eq, qmul_eq, hm310]
    · rw [if_neg hik] at hv
      cases hv

/-- Second synonym variant of the C4 witness instance. -/
def c4SynVariant : Rag.Variant :=
  ((((Rag.buildQueryVariants Rag.defaultConfig (strOf "prix") ⟨none, none, none⟩).filter
    (fun v => decide (v.reason = strOf "synonym")))[1]?).getD
    (Rag.mkVar [] 0 [] ⟨none, none, none⟩ false))

/-- C4, witness: defaults, the query prix (four synonym expansions) and an
empty session; the second synonym variant weighs 0.7. -/
theorem C4_witness :
    ((Rag.buildQueryVariants Rag.defaultConfig (strOf "prix") ⟨none, none, none⟩).filter
      (fun v => decide (v.reason = strOf "synonym")))[1]? = some c4SynVariant ∧
    c4SynVariant.weight = max (3/10 : ℚ) (1 - ((1 + 1 : ℕ) : ℚ) * Rag.defaultConfig.variantDecay) :=
  ⟨by decide,
   (C4_variants Rag.defaultConfig (strOf "prix") ⟨none, none, none⟩
      (by decide) (by decide) (by decide)).2.2.2.2 1 c4SynVariant (by decide)⟩

end Myleo

namespace Myleo

namespace Rag

/-- Merge of one candidate into an optional existing entry, as performed
by one step of the aggregation loop. -/
def mergeOne : Option Agg → Candidate → Agg
  | none, c => { faqId := c.faqId, row := c.row, score := c.score, sources := [c.variantReason] }
  | some e, c => { e with score := max e.score c.score, sources := e.sources ++ [c.variantReason] }

/-- Lookup of the aggregated entry of a FAQ id. -/
def findAgg (id : Nat) (l : List Agg) : Option Agg :=
  l.find? (fun e => decide (e.faqId = id))

/-- Merge of a candidate sequence into an existing entry. -/
def mergeAll (e0 : Agg) (cs : List Candidate) : Agg :=
  cs.foldl (fun e c => mergeOne (some e) c) e0

theorem findAgg_cons (e : Agg) (l : List Agg) (id : Nat) :
    findAgg id (e :: l) = if e.faqId = id then some e else findAgg id l := by
  by_cases h : e.faqId = id
  · rw [if_pos h]
    exact List.find?_cons_of_pos _ (by simpa using h)
  · rw [if_neg h]
    exact List.find?_cons_of_neg _ (by simpa using h)

theorem findAgg_aggInsert (acc : List Agg) (c : Candidate) (id : Nat) :
    findAgg id (aggInsert acc c) =
      if c.faqId = id then some (mergeOne (findAgg id acc) c) else findAgg id acc := by
  induction acc with
  | nil =>
    by_cases h : c.faqId = id <;>
      simp [aggInsert, findAgg, mergeOne, List.find?, h]
  | cons e rest ih =>
    simp only [aggInsert]
    by_cases h1 : e.faqId = c.faqId
    · rw [if_pos h1, findAgg_cons, findAgg_cons]
      dsimp only
      by_cases h2 : c.faqId = id
      · rw [if_pos (h1.trans h2), if_pos h2, if_pos (h1.trans h2)]
        rfl
      · have h3 : ¬(e.faqId = id) := fun h => h2 (h1.symm.trans h)
        rw [if_neg h3, if_neg h2, if_neg h3]
    · rw [if_neg h1, findAgg_cons]
      by_cases h2 : e.faqId = id
      · have h3 : ¬(c.faqId = id) := fun h => h1 (h2.trans h.symm)
        rw [if_pos h2, if_neg h3, findAgg_cons, if_pos h2]
      · rw [if_neg h2, ih, findAgg_cons, if_neg h2]

theorem findAgg_foldl (cs : List Candidate) :
    ∀ (acc : List Agg) (id : Nat),
      findAgg id (cs.foldl aggInsert acc) =
        (cs.filter (fun c => decide (c.faqId = id))).foldl
          (fun o c => some (mergeOne o c)) (findAgg id acc) := by
  induction cs with
  | nil => intro acc id; rfl
  | cons c cs ih =>
    intro acc id
    rw [List.foldl_cons, ih (aggInsert acc c) id, findAgg_aggInsert]
    by_cases h : c.faqId = id
    · rw [if_pos h, List.filter_cons_of_pos (by simpa using h), List.foldl_cons]
    · rw [if_neg h, List.filter_cons_of_neg (by simpa using h)]

theorem mergeFold_eq (e0 : Agg) (cs : List Candidate) :
    cs.foldl (fun o c => some (mergeOne o c)) (some e0) = some (mergeAll e0 cs) := by
  induction cs generalizing e0 with
  | nil => rfl
  | cons c cs ih => rw [List.foldl_cons, mergeAll, List.foldl_cons]; exact ih _

theorem mergeAll_sources (e0 : Agg) (cs : List Candidate) :
    (mergeAll e0 cs).sources = e0.sources ++ cs.map Candidate.variantReason := by
  induction cs generalizing e0 with
  | nil => simp [mergeAll]
  | cons c cs ih =>
    rw [mergeAll, List.foldl_cons]
    show (mergeAll _ cs).sources = _
    rw [ih]
    simp [mergeOne]

theorem mergeAll_score (e0 : Agg) (cs : List Candidate) :
    (mergeAll e0 cs).score = (cs.map Candidate.score).foldl max e0.score := by
  induction cs generalizing e0 with
  | nil => rfl
  | cons c cs ih =>
    rw [mergeAll, List.foldl_cons]
    show (mergeAll _ cs).score = _
    rw [ih]
    rfl

theorem foldl_max_mem (l : List ℚ) : ∀ a : ℚ, l.foldl max a ∈ a :: l := by
  induction l with
  | nil => intro a; simp
  | cons x l ih =>
    intro a
    rw [List.foldl_cons]
    rcases List.mem_cons.mp (ih (max a x)) with h | h
    · rcases max_choice a x with hm | hm
      · exact List.mem_cons.mpr (Or.inl (h.trans hm))
      · exact List.mem_cons.mpr (Or.inr (List.mem_cons.mpr (Or.inl (h.trans hm))))
    · exact List.mem_cons.mpr (Or.inr (List.mem_cons.mpr (Or.inr h)))

theorem le_foldl_max (l : List ℚ) : ∀ a : ℚ,
    a ≤ l.foldl max a ∧ ∀ x ∈ l, x ≤ l.foldl max a := by
  induction l with
  | nil => intro a; simp
  | cons y l ih =>
    intro a
    rw [List.foldl_cons]
    refine ⟨le_trans (le_max_left a y) (ih (max a y)).1, ?_⟩
    intro x hx
    rcases List.mem_cons.mp hx with rfl | hx
    · exact le_trans (le_max_right a x) (ih (max a x)).1
    · exact (ih (max a y)).2 x hx

theorem aggInsert_keys (acc : List Agg) (c : Candidate) :
    (aggInsert acc c).map Agg.faqId =
      if c.faqId ∈ acc.map Agg.faqId then acc.map Agg.faqId
      else acc.map Agg.faqId ++ [c.faqId] := by
  induction acc with
  | nil => simp [aggInsert]
  | cons e rest ih =>
    by_cases h : e.faqId = c.faqId
    · simp [aggInsert, h]
    · simp only [aggInsert, if_neg h, List.map_cons, ih, List.mem_cons]
      by_cases h2 : c.faqId ∈ rest.map Agg.faqId
      · rw [if_pos h2, if_pos (Or.inr h2)]
      · rw [if_neg h2, if_neg (by rintro (h3 | h3); exact h (h3.symm); exact h2 h3)]
        simp

theorem aggregate_keys_nodup (cs : List Candidate) :
    ∀ acc : List Agg, (acc.map Agg.faqId).Nodup →
      ((cs.foldl aggInsert acc).map Agg.faqId).Nodup := by
  induction cs with
  | nil => intro acc h; exact h
  | cons c cs ih =>
    intro acc h
    rw [List.foldl_cons]
    apply ih
    rw [aggInsert_keys]
    by_cases h2 : c.faqId ∈ acc.map Agg.faqId
    · rw [if_pos h2]; exact h
    · rw [if_neg h2]
      exact List.Nodup.append h (List.nodup_singleton _) (by simpa using h2)

theorem findAgg_isSome_iff (id : Nat) (l : List Agg) :
    (findAgg id l).isSome ↔ id ∈ l.map Agg.faqId := by
  induction l with
  | nil => simp [findAgg, List.find?]
  | cons e rest ih =>
    rw [findAgg_cons]
    by_cases h : e.faqId = id
    · simp [h]
    · rw [if_neg h]
      simp only [List.map_cons, List.mem_cons]
      rw [ih]
      constructor
      · exact Or.inr
      · rintro (h2 | h2)
        · exact absurd h2.symm h
        · exact h2

theorem mem_findAgg {l : List Agg} (hnd : (l.map Agg.faqId).Nodup) {e : Agg} (he : e ∈ l) :
    findAgg e.faqId l = some e := by
  induction l with
  | nil => cases he
  | cons x rest ih =>
    have hnd' : x.faqId ∉ List.map Agg.faqId rest ∧ (List.map Agg.faqId rest).Nodup := by
      rw [List.map_cons, List.nodup_cons] at hnd
      exact hnd
    rcases List.mem_cons.mp he with rfl | he2
    · rw [findAgg_cons, if_pos rfl]
    · have hxne : ¬(x.faqId = e.faqId) := by
        intro hx
        exact hnd'.1 (hx ▸ List.mem_map_of_mem Agg.faqId he2)
      rw [findAgg_cons, if_neg hxne]
      exact ih hnd'.2 he2

end Rag

/-- Dummy row of the C2 counterexample. -/
def c2row : Rag.Row := ⟨1, none, none, none, none, none⟩

/-- C2, counterexample: two candidates for the same FAQ id contributed by
two synonym variants are merged into one entry whose sources list contains
the reason synonym twice: the code pushes the reason unconditionally, so
reasons are not deduplicated. -/
theorem C2_counterexample :
    Rag.aggregateCandidates
        [⟨1, c2row, strOf "synonym", mkRat 11 20, mkRat 1 2⟩,
         ⟨1, c2row, strOf "synonym", mkRat 7 10, mkRat 3 10⟩] =
      [⟨1, c2row, mkRat 1 2, [strOf "synonym", strOf "synonym"]⟩] ∧
    ¬ ([strOf "synonym", strOf "synonym"] : List Str).Nodup := by
  exact ⟨by decide, by decide⟩

/-- C2, amended: when the same FAQ identifier is produced by two or more
variants it appears exactly once in the aggregation (the id list is
duplicate free and every contributing candidate is represented), its score
is the maximum of the contributing scores, and its sources field is the
concatenation of the contributing variant reasons in processing order;
a reason tag is repeated when two contributing variants share it (the code
pushes reasons without deduplication). -/
theorem C2_amended (cs : List Rag.Candidate) :
    ((Rag.aggregateCandidates cs).map Rag.Agg.faqId).Nodup ∧
    (∀ c ∈ cs, c.faqId ∈ (Rag.aggregateCandidates cs).map Rag.Agg.faqId) ∧
    ∀ e ∈ Rag.aggregateCandidates cs,
      e.sources = (cs.filter (fun c => decide (c.faqId = e.faqId))).map
        Rag.Candidate.variantReason ∧
      e.score ∈ (cs.filter (fun c => decide (c.faqId = e.faqId))).map Rag.Candidate.score ∧
      ∀ x ∈ (cs.filter (fun c => decide (c.faqId = e.faqId))).map Rag.Candidate.score,
        x ≤ e.score := by
  have hchar : ∀ id : Nat,
      Rag.findAgg id (Rag.aggregateCandidates cs) =
        (cs.filter (fun c => decide (c.faqId = id))).foldl
          (fun o c => some (Rag.mergeOne o c)) none := by
    intro id
    rw [Rag.aggregateCandidates, Rag.findAgg_foldl]
    rfl
  have hnd : ((Rag.aggregateCandidates cs).map Rag.Agg.faqId).Nodup :=
    Rag.aggregate_keys_nodup cs [] (by simp)
  refine ⟨hnd, ?_, ?_⟩
  · intro c hc
    rw [← Rag.findAgg_isSome_iff, hchar c.faqId]
    have hmem : c ∈ cs.filter (fun x => decide (x.faqId = c.faqId)) :=
      List.mem_filter.mpr ⟨hc, by simp⟩
    rcases hflt : cs.filter (fun x => decide (x.faqId = c.faqId)) with _ | ⟨c0, rest⟩
    · rw [hflt] at hmem; cases hmem
    · rw [hflt, List.foldl_cons, Rag.mergeFold_eq]
      rfl
  · intro e he
    have hfind : Rag.findAgg e.faqId (Rag.aggregateCandidates cs) = some e :=
      Rag.mem_findAgg hnd he
    rw [hchar e.faqId] at hfind
    rcases hflt : cs.filter (fun c => decide (c.faqId = e.faqId)) with _ | ⟨c0, rest⟩
    · rw [hflt] at hfind; cases hfind
    · rw [hflt, List.foldl_cons, Rag.mergeFold_eq] at hfind
      have he2 : Rag.mergeAll (Rag.mergeOne none c0) rest = e :=
        (Option.some.injEq _ _).mp hfind
      have hsrc : e.sources = (c0 :: rest).map Rag.Candidate.variantReason := by
        rw [← he2, Rag.mergeAll_sources]
        simp [Rag.mergeOne]
      have hsc : e.score = (rest.map Rag.Candidate.score).foldl max c0.score := by
        rw [← he2, Rag.mergeAll_score]
        rfl
      refine ⟨?_, ?_, ?_⟩
      · rw [hflt]
        exact hsrc
      · rw [hflt, List.map_cons, hsc]
        exact Rag.foldl_max_mem _ _
      · intro x hx
        rw [hflt, List.map_cons] at hx
        rw [hsc]
        rcases List.mem_cons.mp hx with rfl | hx2
        · exact (Rag.le_foldl_max (rest.map Rag.Candidate.score) c0.score).1
        · exact (Rag.le_foldl_max (rest.map Rag.Candidate.score) c0.score).2 x hx2

/-- C2, witness: two same-id candidates with distinct reasons merge into a
single entry carrying both reasons, with the maximum score. -/
theorem C2_witness :
    ((Rag.aggregateCandidates
        [⟨1, c2row, strOf "base", 1, mkRat 1 2⟩,
         ⟨1, c2row, strOf "product", mkRat 17 20, mkRat 7 10⟩]).map Rag.Agg.faqId).Nodup :=
  (C2_amended
    [⟨1, c2row, strOf "base", 1, mkRat 1 2⟩,
     ⟨1, c2row, strOf "product", mkRat 17 20, mkRat 7 10⟩]).1

end Myleo

namespace Myleo

namespace Rag

theorem aggInsert_length (acc : List Agg) (c : Candidate) :
    acc.length ≤ (aggInsert acc c).length := by
  induction acc with
  | nil => simp [aggInsert]
  | cons e rest ih =>
    simp only [aggInsert]
    by_cases h : e.faqId = c.faqId
    · rw [if_pos h]
      simp
    · rw [if_neg h]
      simpa using ih

theorem aggregate_foldl_length (cs : List Candidate) :
    ∀ acc : List Agg, acc.length ≤ (cs.foldl aggInsert acc).length := by
  induction cs with
  | nil => intro acc; simp
  | cons c cs ih =>
    intro acc
    rw [List.foldl_cons]
    exact le_trans (aggInsert_length acc c) (ih (aggInsert acc c))

theorem aggregateCandidates_ne_nil (c : Candidate) (cs : List Candidate) :
    aggregateCandidates (c :: cs) ≠ [] := by
  have h1 : 1 ≤ (aggregateCandidates (c :: cs)).length := by
    rw [aggregateCandidates, List.foldl_cons]
    have : (aggInsert [] c).length = 1 := rfl
    exact this ▸ aggregate_foldl_length cs (aggInsert [] c)
  intro h
  rw [h] at h1
  cases h1

theorem insertDesc_length (e : Agg) (l : List Agg) :
    (insertDesc e l).length = l.length + 1 := by
  induction l with
  | nil => rfl
  | cons a rest ih =>
    simp only [insertDesc]
    by_cases h : e.score ≥ a.score
    · rw [if_pos h]
      simp
    · rw [if_neg h]
      simp [ih]

theorem sortByScoreDesc_length (l : List Agg) :
    (sortByScoreDesc l).length = l.length := by
  induction l with
  | nil => rfl
  | cons a rest ih =>
    show (insertDesc a (sortByScoreDesc rest)).length = _
    rw [insertDesc_length, ih, List.length_cons]

end Rag

theorem buildResult_rankedCandidates (cfg : Rag.RagConfig) (nq : Str)
    (vs : List Rag.Variant) (cs : List Rag.Candidate) :
    (Rag.buildResult cfg nq vs cs).rankedCandidates =
      (Rag.sortByScoreDesc (Rag.aggregateCandidates cs)).enum.map Rag.toRanked := rfl

theorem buildResult_topCandidates (cfg : Rag.RagConfig) (nq : Str)
    (vs : List Rag.Variant) (cs : List Rag.Candidate) :
    (Rag.buildResult cfg nq vs cs).topCandidates =
      (if ((((Rag.sortByScoreDesc (Rag.aggregateCandidates cs)).enum.map
            Rag.toRanked).take cfg.topKResults).filter
          (fun c => decide (cfg.minScore ≤ c.score))).isEmpty then
        ((Rag.sortByScoreDesc (Rag.aggregateCandidates cs)).enum.map
          Rag.toRanked).take cfg.topKResults
      else
        (((Rag.sortByScoreDesc (Rag.aggregateCandidates cs)).enum.map
            Rag.toRanked).take cfg.topKResults).filter
          (fun c => decide (cfg.minScore ≤ c.score))) := rfl

/-- C7: whenever retrieve returns a non-null result (and at least one
result is kept, as under the default topKResults = 3), the topCandidates
are the members of the top-K ranked candidates at or above the minimum
score floor, except that when the floor excludes every top-K candidate the
unfiltered top-K is returned; in both cases topCandidates is nonempty. -/
theorem C7_topCandidates (cfg : Rag.RagConfig) (db : Rag.Db)
    (cache0 : CacheService.CacheState (List Rag.Row)) (now : Int) (query : Str)
    (session : Rag.Session) (res : Rag.RetrieveResult)
    (hK : 1 ≤ cfg.topKResults)
    (hres : Rag.retrieve cfg db cache0 now query session = some res) :
    res.topCandidates ≠ [] ∧
    (((res.rankedCandidates.take cfg.topKResults).filter
        (fun c => decide (cfg.minScore ≤ c.score)) ≠ [] ∧
      res.topCandidates = (res.rankedCandidates.take cfg.topKResults).filter
        (fun c => decide (cfg.minScore ≤ c.score))) ∨
     ((res.rankedCandidates.take cfg.topKResults).filter
        (fun c => decide (cfg.minScore ≤ c.score)) = [] ∧
      res.topCandidates = res.rankedCandidates.take cfg.topKResults)) := by
  unfold Rag.retrieve at hres
  dsimp only at hres
  rcases hcoll : ((Rag.buildQueryVariants cfg (Rag.normalizeQuery query) session).foldl
      (Rag.collectStep cfg db session now) ([], cache0)).1 with _ | ⟨c, cs⟩
  · rw [hcoll] at hres
    cases hres
  · rw [hcoll] at hres
    have hres2 : Rag.buildResult cfg (Rag.normalizeQuery query)
        (Rag.buildQueryVariants cfg (Rag.normalizeQuery query) session) (c :: cs) = res :=
      (Option.some.injEq _ _).mp hres
    rw [← hres2, buildResult_rankedCandidates, buildResult_topCandidates]
    set ranked := (Rag.sortByScoreDesc
      (Rag.aggregateCandidates (c :: cs))).enum.map Rag.toRanked with hranked
    have hrankedlen : 1 ≤ ranked.length := by
      rw [hranked, List.length_map, List.enum_length, Rag.sortByScoreDesc_length]
      have := Rag.aggregateCandidates_ne_nil c cs
      cases hagg : Rag.aggregateCandidates (c :: cs) with
      | nil => exact absurd hagg this
      | cons x xs => simp
    have htopk : (ranked.take cfg.topKResults) ≠ [] := by
      have hlen : 1 ≤ (ranked.take cfg.topKResults).length := by
        rw [List.length_take]
        exact le_min hK hrankedlen
      intro h
      rw [h] at hlen
      cases hlen
    by_cases habv : (ranked.take cfg.topKResults).filter
        (fun c => decide (cfg.minScore ≤ c.score)) = []
    · rw [habv]
      refine ⟨by simpa using htopk, Or.inr ⟨rfl, by simp⟩⟩
    · have hne : (((ranked.take cfg.topKResults).filter
          (fun c => decide (cfg.minScore ≤ c.score))).isEmpty = false) := by
        rw [Bool.eq_false_iff]
        intro hcon
        exact habv (List.isEmpty_iff.mp hcon)
      rw [hne]
      exact ⟨by simpa using habv, Or.inl ⟨habv, by simp⟩⟩

end Myleo

namespace Myleo

/-- Store of the C7 witness: searchFaqs returns one row, the content
search returns no rows. -/
def dbW : Rag.Db :=
  ⟨fun _ _ => .ok [⟨7, none, none, some 1, none, none⟩], fun _ _ => .ok []⟩

/-- Fresh cache of the retrieve witnesses. -/
def cacheW : CacheService.CacheState (List Rag.Row) :=
  CacheService.initState (List Rag.Row) 1000 300000

/-- Empty session of the retrieve witnesses. -/
def sessW : Rag.Session := ⟨none, none, none⟩

/-- Result of the C7 witness run. -/
def c7res : Rag.RetrieveResult :=
  match Rag.retrieve Rag.defaultConfig dbW cacheW 0 (strOf "hello") sessW with
  | some r => r
  | none => ⟨[], [], [], []⟩

/-- C7, witness: a store returning one row makes retrieve return a result
with nonempty topCandidates. -/
theorem C7_witness :
    Rag.retrieve Rag.defaultConfig dbW cacheW 0 (strOf "hello") sessW = some c7res ∧
    c7res.topCandidates ≠ [] :=
  ⟨by decide,
   (C7_topCandidates Rag.defaultConfig dbW cacheW 0 (strOf "hello") sessW c7res
      (by decide) (by decide)).1⟩

namespace Rag

/-- Every fallback store call that throws is swallowed and the loop moves
to the next filter variant; when all of them throw the loop returns
null. -/
theorem fallbackLoop_error (db : Db)
    (hdb : ∀ q f, db.searchFaqContent q f = .error ()) (q : Str) (lim : Nat) :
    ∀ fs : List SearchFilters, fallbackLoop db q lim fs = none := by
  intro fs
  induction fs with
  | nil => rfl
  | cons f rest ih =>
    unfold fallbackLoop
    rw [hdb q { f with limit := some lim }]
    exact ih

/-- searchFallback returns null when every content search throws. -/
theorem searchFallback_error (cfg : RagConfig) (db : Db)
    (hdb : ∀ q f, db.searchFaqContent q f = .error ()) (q : Str) (f : SearchFilters) :
    searchFallback cfg db q f = none := by
  unfold searchFallback
  exact fallbackLoop_error db hdb q _ _

/-- On an empty cache with a throwing primary store, getCachedResults
returns null and leaves the cache empty (the thrown error is caught and
nothing is written). -/
theorem getCachedResults_error (cfg : RagConfig) (db : Db)
    (st : CacheService.CacheState (List Row)) (now : Int) (key q : Str) (f : SearchFilters)
    (hdb : ∀ q f, db.searchFaqs q f = .error ()) (hc : st.cache = []) :
    (getCachedResults cfg db st now key q f).1 = none ∧
    (getCachedResults cfg db st now key q f).2.cache = [] := by
  have hget : CacheService.get st now key =
      ((none : Option (List Row)),
       { st with stats := { st.stats with misses := st.stats.misses + 1 } }) := by
    unfold CacheService.get
    rw [hc]
    rfl
  unfold getCachedResults
  rw [hget]
  dsimp only
  rw [hdb q f]
  exact ⟨rfl, hc⟩

/-- One pass of the variant loop with a throwing store adds no candidate
and writes nothing to the cache. -/
theorem collectStep_error (cfg : RagConfig) (db : Db) (session : Session) (now : Int)
    (h1 : ∀ q f, db.searchFaqs q f = .error ())
    (h2 : ∀ q f, db.searchFaqContent q f = .error ())
    (st : List Candidate × CacheService.CacheState (List Row)) (v : Variant)
    (ha : st.1 = []) (hb : st.2.cache = []) :
    (collectStep cfg db session now st v).1 = [] ∧
    (collectStep cfg db session now st v).2.cache = [] := by
  have hgc := getCachedResults_error cfg db st.2 now v.cacheKey v.query
    (buildFilters cfg session v) h1 hb
  unfold collectStep
  dsimp only
  rw [hgc.1]
  cases hfb : v.allowFallback
  · exact ⟨ha, hgc.2⟩
  · rw [searchFallback_error cfg db h2]
    exact ⟨ha, hgc.2⟩

/-- The whole variant loop with a throwing store collects no candidate. -/
theorem collect_error (cfg : RagConfig) (db : Db) (session : Session) (now : Int)
    (h1 : ∀ q f, db.searchFaqs q f = .error ())
    (h2 : ∀ q f, db.searchFaqContent q f = .error ()) :
    ∀ (vs : List Variant) (st : List Candidate × CacheService.CacheState (List Row)),
      st.1 = [] → st.2.cache = [] →
      (vs.foldl (collectStep cfg db session now) st).1 = [] ∧
      (vs.foldl (collectStep cfg db session now) st).2.cache = [] := by
  intro vs
  induction vs with
  | nil => intro st ha hb; exact ⟨ha, hb⟩
  | cons v rest ih =>
    intro st ha hb
    rw [List.foldl_cons]
    have hstep := collectStep_error cfg db session now h1 h2 st v ha hb
    exact ih _ hstep.1 hstep.2

end Rag

/-- C8: when every candidate-store call throws (searchFaqs and
searchFaqContent both fail) and the cache starts empty, retrieve returns
null and no exception propagates (retrieve is total); each store failure
is caught per call, getCachedResults turning it into a null result and
searchFallback skipping to the next filter variant, while the variant loop
continues. -/
theorem C8_errors (cfg : Rag.RagConfig) (db : Rag.Db)
    (cache0 : CacheService.CacheState (List Rag.Row)) (now : Int) (query : Str)
    (session : Rag.Session)
    (h1 : ∀ q f, db.searchFaqs q f = .error ())
    (h2 : ∀ q f, db.searchFaqContent q f = .error ())
    (hc : cache0.cache = []) :
    Rag.retrieve cfg db cache0 now query session = none ∧
    (∀ key q f, (Rag.getCachedResults cfg db cache0 now key q f).1 = none) ∧
    (∀ q f, Rag.searchFallback cfg db q f = none) := by
  refine ⟨?_, ?_, ?_⟩
  · unfold Rag.retrieve
    dsimp only
    have h := Rag.collect_error cfg db session now h1 h2
      (Rag.buildQueryVariants cfg (Rag.normalizeQuery query) session) ([], cache0) rfl hc
    rw [h.1]
  · intro key q f
    exact (Rag.getCachedResults_error cfg db cache0 now key q f h1 hc).1
  · intro q f
    exact Rag.searchFallback_error cfg db h2 q f

/-- Store of the C8 witness; both calls always throw. -/
def dbE : Rag.Db := ⟨fun _ _ => .error (), fun _ _ => .error ()⟩

/-- C8, witness: with the always-throwing store and a fresh cache,
retrieve returns null. -/
theorem C8_witness :
    Rag.retrieve Rag.defaultConfig dbE cacheW 0 (strOf "hello") sessW = none :=
  (C8_errors Rag.defaultConfig dbE cacheW 0 (strOf "hello") sessW
    (fun _ _ => rfl) (fun _ _ => rfl) rfl).1

end Myleo

namespace Myleo

section AssocLemmas

variable {β : Type}

theorem alookup_eq_none_iff (l : List (Str × β)) (k : Str) :
    alookup l k = none ↔ k ∉ l.map Prod.fst := by
  induction l with
  | nil => simp [alookup]
  | cons p rest ih =>
    simp only [alookup, List.map_cons, List.mem_cons]
    by_cases h : p.1 = k
    · rw [if_pos h]
      constructor
      · intro hcon
        cases hcon
      · intro hcon
        exact absurd (Or.inl h.symm) hcon
    · rw [if_neg h, ih]
      constructor
      · intro hn hk
        rcases hk with hk | hk
        · exact h hk.symm
        · exact hn hk
      · intro hn
        exact fun hk => hn (Or.inr hk)

theorem alookup_isSome_iff (l : List (Str × β)) (k : Str) :
    (alookup l k).isSome = true ↔ k ∈ l.map Prod.fst := by
  induction l with
  | nil => simp [alookup]
  | cons p rest ih =>
    simp only [alookup, List.map_cons, List.mem_cons]
    by_cases h : p.1 = k
    · rw [if_pos h]
      exact ⟨fun _ => Or.inl h.symm, fun _ => rfl⟩
    · rw [if_neg h, ih]
      constructor
      · exact Or.inr
      · rintro (h2 | h2)
        · exact absurd h2.symm h
        · exact h2

theorem aset_keys (l : List (Str × β)) (k : Str) (v : β) :
    (aset l k v).map Prod.fst =
      if k ∈ l.map Prod.fst then l.map Prod.fst else l.map Prod.fst ++ [k] := by
  induction l with
  | nil => simp [aset]
  | cons p rest ih =>
    simp only [aset, List.map_cons, List.mem_cons]
    by_cases h : p.1 = k
    · rw [if_pos h, if_pos (Or.inl h.symm)]
      simp
    · rw [if_neg h, List.map_cons, ih]
      by_cases h2 : k ∈ rest.map Prod.fst
      · rw [if_pos h2, if_pos (Or.inr h2)]
      · rw [if_neg h2, if_neg (by rintro (h3 | h3); exact h h3.symm; exact h2 h3)]
        simp

theorem aerase_keys (l : List (Str × β)) (k : Str) :
    (aerase l k).map Prod.fst = (l.map Prod.fst).erase k := by
  induction l with
  | nil => simp [aerase]
  | cons p rest ih =>
    simp only [aerase, List.map_cons]
    by_cases h : p.1 = k
    · rw [if_pos h, h, List.erase_cons_head]
    · rw [if_neg h, List.map_cons, ih, List.erase_cons_tail (by simpa using h)]

theorem alookup_aset_self (l : List (Str × β)) (k : Str) (v : β) :
    alookup (aset l k v) k = some v := by
  induction l with
  | nil => simp [aset, alookup]
  | cons p rest ih =>
    simp only [aset]
    by_cases h : p.1 = k
    · rw [if_pos h]
      simp [alookup, h]
    · rw [if_neg h]
      simp only [alookup, if_neg h]
      exact ih

theorem alookup_aset_ne (l : List (Str × β)) (k k2 : Str) (v : β) (hne : ¬(k = k2)) :
    alookup (aset l k v) k2 = alookup l k2 := by
  induction l with
  | nil => simp [aset, alookup, hne]
  | cons p rest ih =>
    simp only [aset]
    by_cases h : p.1 = k
    · rw [if_pos h]
      simp only [alookup]
      rw [if_neg (by rw [h]; exact hne), if_neg (by rw [h]; exact hne)]
    · rw [if_neg h]
      simp only [alookup]
      by_cases h2 : p.1 = k2
      · rw [if_pos h2, if_pos h2]
      · rw [if_neg h2, if_neg h2]
        exact ih

theorem alookup_aerase_self (l : List (Str × β)) (k : Str)
    (hnd : (l.map Prod.fst).Nodup) : alookup (aerase l k) k = none := by
  rw [alookup_eq_none_iff, aerase_keys]
  exact hnd.not_mem_erase

theorem aerase_subset (l : List (Str × β)) (k : Str) :
    ∀ p ∈ aerase l k, p ∈ l := by
  induction l with
  | nil => intro p hp; cases hp
  | cons q rest ih =>
    intro p hp
    simp only [aerase] at hp
    by_cases h : q.1 = k
    · rw [if_pos h] at hp
      exact List.mem_cons_of_mem q hp
    · rw [if_neg h] at hp
      rcases List.mem_cons.mp hp with hpe | hp2
      · exact hpe ▸ List.mem_cons_self q rest
      · exact List.mem_cons_of_mem q (ih p hp2)

theorem aset_subset_insert (l : List (Str × β)) (k : Str) (v : β) :
    ∀ p ∈ aset l k v, p = (k, v) ∨ p ∈ l := by
  induction l with
  | nil =>
    intro p hp
    simp only [aset] at hp
    rcases List.mem_singleton.mp hp with rfl
    exact Or.inl rfl
  | cons q rest ih =>
    intro p hp
    simp only [aset] at hp
    by_cases h : q.1 = k
    · rw [if_pos h] at hp
      rcases List.mem_cons.mp hp with rfl | hp2
      · exact Or.inl (by rw [h])
      · exact Or.inr (List.mem_cons_of_mem q hp2)
    · rw [if_neg h] at hp
      rcases List.mem_cons.mp hp with hpe | hp2
      · exact Or.inr (hpe ▸ List.mem_cons_self q rest)
      · rcases ih p hp2 with h3 | h3
        · exact Or.inl h3
        · exact Or.inr (List.mem_cons_of_mem q h3)

theorem aset_length (l : List (Str × β)) (k : Str) (v : β) :
    (aset l k v).length = if k ∈ l.map Prod.fst then l.length else l.length + 1 := by
  have h1 : (aset l k v).length = ((aset l k v).map Prod.fst).length := by
    rw [List.length_map]
  rw [h1, aset_keys]
  by_cases h : k ∈ l.map Prod.fst
  · rw [if_pos h, if_pos h, List.length_map]
  · rw [if_neg h, if_neg h, List.length_append, List.length_map]
    rfl

theorem aerase_length_of_mem (l : List (Str × β)) (k : Str)
    (hmem : k ∈ l.map Prod.fst) : (aerase l k).length = l.length - 1 := by
  have h1 : (aerase l k).length = ((aerase l k).map Prod.fst).length := by
    rw [List.length_map]
  rw [h1, aerase_keys, List.length_erase_of_mem hmem, List.length_map]

end AssocLemmas

end Myleo

namespace Myleo

namespace CacheService

variable {α : Type}

/-- Well-formedness maintained by the service: unique keys, and the entry
map and the access-order map hold exactly the same keys in the same
order (both start empty and every operation updates them together). -/
def CacheWF (st : CacheState α) : Prop :=
  (st.cache.map Prod.fst).Nodup ∧ st.cache.map Prod.fst = st.accessOrder.map Prod.fst

theorem selFold_spec (l : List (Str × Int)) :
    ∀ init : Option Str × Int,
      (l.foldl selStep init).2 ≤ init.2 ∧
      (∀ p ∈ l, (l.foldl selStep init).2 ≤ p.2) ∧
      (l.foldl selStep init = init ∨
        ∃ k, (l.foldl selStep init).1 = some k ∧ (k, (l.foldl selStep init).2) ∈ l) := by
  induction l with
  | nil =>
    intro init
    refine ⟨le_refl _, ?_, Or.inl rfl⟩
    intro p hp
    cases hp
  | cons p rest ih =>
    intro init
    rw [List.foldl_cons]
    obtain ⟨ih1, ih2, ih3⟩ := ih (selStep init p)
    have hs1 : (selStep init p).2 ≤ init.2 := by
      unfold selStep
      split_ifs with h
      · exact le_of_lt h
      · exact le_refl _
    have hs2 : (selStep init p).2 ≤ p.2 := by
      unfold selStep
      split_ifs with h
      · exact le_refl _
      · exact le_of_not_lt h
    refine ⟨le_trans ih1 hs1, ?_, ?_⟩
    · intro q hq
      rcases List.mem_cons.mp hq with hqe | hq2
      · rw [hqe]
        exact le_trans ih1 hs2
      · exact ih2 q hq2
    · rcases ih3 with h3 | ⟨k, hk1, hk2⟩
      · rw [h3]
        unfold selStep
        split_ifs with h
        · refine Or.inr ⟨p.1, rfl, ?_⟩
          show (p.1, p.2) ∈ p :: rest
          rw [Prod.mk.eta]
          exact List.mem_cons_self p rest
        · exact Or.inl rfl
      · exact Or.inr ⟨k, hk1, List.mem_cons_of_mem p hk2⟩

theorem selectOldest_spec (l : List (Str × Int)) (now : Int) (hne : l ≠ [])
    (ht : ∀ p ∈ l, p.2 < now) :
    ∃ k, (selectOldest l now).1 = some k ∧ (k, (selectOldest l now).2) ∈ l ∧
      ∀ p ∈ l, (selectOldest l now).2 ≤ p.2 := by
  obtain ⟨h1, h2, h3⟩ := selFold_spec l ((none : Option Str), now)
  rcases h3 with h3 | ⟨k, hk1, hk2⟩
  · rcases hl : l with _ | ⟨p, rest⟩
    · exact absurd hl hne
    · have hle := h2 p (by rw [hl]; exact List.mem_cons_self p rest)
      have hlt := ht p (by rw [hl]; exact List.mem_cons_self p rest)
      rw [show (l.foldl selStep ((none : Option Str), now)) = ((none : Option Str), now) from h3] at hle
      exact absurd (lt_of_le_of_lt hle hlt) (lt_irrefl _)
  · exact ⟨k, hk1, hk2, h2⟩

theorem del_fields (st : CacheState α) (k : Str) (hk : k ∈ st.cache.map Prod.fst) :
    (del st k).cache = aerase st.cache k ∧
    (del st k).accessOrder = aerase st.accessOrder k ∧
    (del st k).maxEntries = st.maxEntries := by
  unfold del
  rw [if_pos ((alookup_isSome_iff _ _).mpr hk)]
  exact ⟨rfl, rfl, rfl⟩

theorem evictOldest_spec (st : CacheState α) (now : Int) (hwf : CacheWF st)
    (hne : st.accessOrder ≠ []) (hkeys : ∀ p ∈ st.accessOrder, p.1 ≠ [])
    (ht : ∀ p ∈ st.accessOrder, p.2 < now) :
    ∃ ek, (selectOldest st.accessOrder now).1 = some ek ∧
      ek ∈ st.cache.map Prod.fst ∧
      (evictOldest st now).cache = aerase st.cache ek ∧
      (evictOldest st now).accessOrder = aerase st.accessOrder ek ∧
      (evictOldest st now).maxEntries = st.maxEntries := by
  obtain ⟨k, hk1, hk2, hk3⟩ := selectOldest_spec st.accessOrder now hne ht
  have hkne : k ≠ [] := hkeys _ hk2
  have hkmem : k ∈ st.accessOrder.map Prod.fst := List.mem_map_of_mem Prod.fst hk2
  have hkc : k ∈ st.cache.map Prod.fst := by rw [hwf.2]; exact hkmem
  have hemp : st.accessOrder.isEmpty = false := by
    rcases hl : st.accessOrder with _ | ⟨p, rest⟩
    · exact absurd hl hne
    · rfl
  obtain ⟨hd1, hd2, hd3⟩ := del_fields st k hkc
  rcases hkk : k with _ | ⟨c, kr⟩
  · exact absurd hkk hkne
  · rw [hkk] at hk1 hd1 hd2 hd3 hkc
    refine ⟨c :: kr, hk1, hkc, ?_, ?_, ?_⟩ <;>
      · unfold evictOldest
        rw [hemp, hk1]
        simp only [Bool.false_eq_true, if_false]
        first
          | exact hd1
          | exact hd2
          | exact hd3

/-- Folding set over a list of timed insertions. -/
def setAll (st : CacheState α) (ops : List (Int × Str × α)) : CacheState α :=
  ops.foldl (fun s op => set s op.1 op.2.1 op.2.2 none) st

end CacheService

end Myleo

namespace Myleo

namespace CacheService

variable {α : Type}

theorem access_length_eq (st : CacheState α) (hwf : CacheWF st) :
    st.accessOrder.length = st.cache.length := by
  have h := congrArg List.length hwf.2
  rw [List.length_map, List.length_map] at h
  exact h.symm

/-- A set call preserves well-formedness and, when every recorded key is
nonempty and every recorded access time is strictly before now, the
capacity bound; every access-order entry afterwards is the new pair or an
already present one. -/
theorem set_preserves (st : CacheState α) (now : Int) (key : Str) (v : α) (ttl : Option Int)
    (hwf : CacheWF st) (hlen : st.cache.length ≤ st.maxEntries) (hcap : 1 ≤ st.maxEntries)
    (hkeys : ∀ p ∈ st.accessOrder, p.1 ≠ [])
    (ht : ∀ p ∈ st.accessOrder, p.2 < now) :
    CacheWF (set st now key v ttl) ∧
    (set st now key v ttl).cache.length ≤ st.maxEntries ∧
    (set st now key v ttl).maxEntries = st.maxEntries ∧
    ∀ p ∈ (set st now key v ttl).accessOrder, p = (key, now) ∨ p ∈ st.accessOrder := by
  by_cases hkey : key ∈ st.cache.map Prod.fst
  · have hsome : (alookup st.cache key).isSome = true := (alookup_isSome_iff _ _).mpr hkey
    have hcond : (decide (st.cache.length ≥ st.maxEntries) && !(alookup st.cache key).isSome)
        = false := by
      rw [hsome]
      simp
    unfold set
    rw [hcond]
    simp only [Bool.false_eq_true, if_false]
    have hka : key ∈ st.accessOrder.map Prod.fst := by rw [← hwf.2]; exact hkey
    refine ⟨⟨?_, ?_⟩, ?_, by trivial, ?_⟩
    · show ((aset st.cache key _).map Prod.fst).Nodup
      rw [aset_keys, if_pos hkey]
      exact hwf.1
    · show (aset st.cache key _).map Prod.fst = (aset st.accessOrder key now).map Prod.fst
      rw [aset_keys, if_pos hkey, aset_keys, if_pos hka]
      exact hwf.2
    · show (aset st.cache key _).length ≤ st.maxEntries
      rw [aset_length, if_pos hkey]
      exact hlen
    · intro p hp
      rcases aset_subset_insert st.accessOrder key now p hp with h | h
      · exact Or.inl h
      · exact Or.inr h
  · have hnone : alookup st.cache key = none := (alookup_eq_none_iff _ _).mpr hkey
    have hka : key ∉ st.accessOrder.map Prod.fst := by rw [← hwf.2]; exact hkey
    by_cases hfull : st.maxEntries ≤ st.cache.length
    · have hcond : (decide (st.cache.length ≥ st.maxEntries) && !(alookup st.cache key).isSome)
          = true := by
        rw [hnone, decide_eq_true hfull]
        rfl
      have hane : st.accessOrder ≠ [] := by
        intro hcon
        have h0 := access_length_eq st hwf
        rw [hcon] at h0
        have : st.cache.length = 0 := h0.symm
        omega
      obtain ⟨ek, hek1, hek2, he1, he2, he3⟩ := evictOldest_spec st now hwf hane hkeys ht
      have hkey2 : key ∉ (evictOldest st now).cache.map Prod.fst := by
        rw [he1, aerase_keys]
        intro hcon
        exact hkey (List.mem_of_mem_erase hcon)
      have hka2 : key ∉ (evictOldest st now).accessOrder.map Prod.fst := by
        rw [he2, aerase_keys]
        intro hcon
        exact hka (List.mem_of_mem_erase hcon)
      unfold set
      rw [hcond]
      simp only [if_true]
      refine ⟨⟨?_, ?_⟩, ?_, ?_, ?_⟩
      · show ((aset (evictOldest st now).cache key _).map Prod.fst).Nodup
        rw [aset_keys, if_neg hkey2, he1, aerase_keys]
        exact List.Nodup.append (hwf.1.erase ek) (List.nodup_singleton key)
          (fun a ha hb => hkey (List.mem_of_mem_erase ((List.mem_singleton.mp hb) ▸ ha)))
      · show (aset (evictOldest st now).cache key _).map Prod.fst
            = (aset (evictOldest st now).accessOrder key now).map Prod.fst
        rw [aset_keys, if_neg hkey2, aset_keys, if_neg hka2, he1, he2, aerase_keys,
          aerase_keys, hwf.2]
      · show (aset (evictOldest st now).cache key _).length ≤ st.maxEntries
        rw [aset_length, if_neg hkey2, he1, aerase_length_of_mem st.cache ek hek2]
        have h1 : 1 ≤ st.cache.length := le_trans hcap hfull
        omega
      · show (evictOldest st now).maxEntries = st.maxEntries
        exact he3
      · intro p hp
        rcases aset_subset_insert (evictOldest st now).accessOrder key now p hp with h | h
        · exact Or.inl h
        · rw [he2] at h
          exact Or.inr (aerase_subset st.accessOrder ek p h)
    · have hcond : (decide (st.cache.length ≥ st.maxEntries) && !(alookup st.cache key).isSome)
          = false := by
        rw [decide_eq_false hfull]
        rfl
      unfold set
      rw [hcond]
      simp only [Bool.false_eq_true, if_false]
      refine ⟨⟨?_, ?_⟩, ?_, by trivial, ?_⟩
      · show ((aset st.cache key _).map Prod.fst).Nodup
        rw [aset_keys, if_neg hkey]
        exact List.Nodup.append hwf.1 (List.nodup_singleton key)
          (fun a ha hb => hkey ((List.mem_singleton.mp hb) ▸ ha))
      · show (aset st.cache key _).map Prod.fst = (aset st.accessOrder key now).map Prod.fst
        rw [aset_keys, if_neg hkey, aset_keys, if_neg hka, hwf.2]
      · show (aset st.cache key _).length ≤ st.maxEntries
        rw [aset_length, if_neg hkey]
        omega
      · intro p hp
        rcases aset_subset_insert st.accessOrder key now p hp with h | h
        · exact Or.inl h
        · exact Or.inr h

theorem setAll_bound (ops : List (Int × Str × α)) :
    ∀ st : CacheState α, CacheWF st → st.cache.length ≤ st.maxEntries → 1 ≤ st.maxEntries →
      (∀ p ∈ st.accessOrder, p.1 ≠ []) →
      (∀ p ∈ st.accessOrder, ∀ op ∈ ops, p.2 < op.1) →
      (∀ op ∈ ops, op.2.1 ≠ []) →
      ops.Pairwise (fun a b => a.1 < b.1) →
      (setAll st ops).cache.length ≤ st.maxEntries := by
  induction ops with
  | nil => intro st hwf hlen hcap hkeys hts hops hpw; exact hlen
  | cons op rest ih =>
    intro st hwf hlen hcap hkeys hts hops hpw
    show (setAll (set st op.1 op.2.1 op.2.2 none) rest).cache.length ≤ st.maxEntries
    obtain ⟨hwf2, hlen2, hmax2, hacc2⟩ :=
      set_preserves st op.1 op.2.1 op.2.2 none hwf hlen hcap hkeys
        (fun p hp => hts p hp op (List.mem_cons_self op rest))
    have hkeys2 : ∀ p ∈ (set st op.1 op.2.1 op.2.2 none).accessOrder, p.1 ≠ [] := by
      intro p hp
      rcases hacc2 p hp with h | h
      · rw [h]
        exact hops op (List.mem_cons_self op rest)
      · exact hkeys p h
    have hts2 : ∀ p ∈ (set st op.1 op.2.1 op.2.2 none).accessOrder,
        ∀ op2 ∈ rest, p.2 < op2.1 := by
      intro p hp op2 hop2
      rcases hacc2 p hp with h | h
      · rw [h]
        exact (List.pairwise_cons.mp hpw).1 op2 hop2
      · exact hts p h op2 (List.mem_cons_of_mem op hop2)
    have := ih (set st op.1 op.2.1 op.2.2 none) hwf2 (by rw [← hmax2] at hlen2; exact hlen2)
      (by rw [hmax2]; exact hcap) hkeys2 hts2
      (fun op2 hop2 => hops op2 (List.mem_cons_of_mem op hop2)) (List.pairwise_cons.mp hpw).2
    rw [hmax2] at this
    exact this

/-- Concrete state of the C6 witness: a cache of capacity 2 holding two
entries whose access times are 0 and 1. -/
def c6state : CacheState Nat :=
  ⟨[(strOf "a", ⟨10, 100, 0⟩), (strOf "b", ⟨20, 100, 1⟩)],
   [(strOf "a", 0), (strOf "b", 1)], 2, 100, ⟨0, 0, 0, 0, 0⟩⟩

/-- C6, amended: the unconditional eviction claim fails (see the
counterexample: same-millisecond access times make selectOldest return
null, and an empty-string minimal key fails the if (oldestKey) truthiness
test - either way nothing is evicted and the insert exceeds capacity).
Under the conditions that every recorded access time is strictly before
now and no recorded key is the empty string, the claimed behaviour holds:
for a well-formed cache at capacity with a nonzero bound, a set of a key
not currently present evicts exactly one entry before inserting - the
cache size is unchanged, the evicted key is one whose last-access
timestamp is minimal over the access-order map, it is gone from the cache
afterwards while the new key is present - and folding set over a strictly
time-increasing operation list with nonempty keys from a fresh cache, in
particular capacity + 1 distinct keys, leaves at most capacity
entries. -/
theorem C6_amended (st : CacheState α) (now : Int) (key : Str) (v : α)
    (ttl : Option Int) (hwf : CacheWF st) (hfull : st.maxEntries ≤ st.cache.length)
    (hcap : 1 ≤ st.maxEntries) (hfresh : alookup st.cache key = none)
    (hkeys : ∀ p ∈ st.accessOrder, p.1 ≠ [])
    (ht : ∀ p ∈ st.accessOrder, p.2 < now) :
    (set st now key v ttl).cache.length = st.cache.length ∧
    (∃ ek, (selectOldest st.accessOrder now).1 = some ek ∧
      (ek, (selectOldest st.accessOrder now).2) ∈ st.accessOrder ∧
      (∀ p ∈ st.accessOrder, (selectOldest st.accessOrder now).2 ≤ p.2) ∧
      alookup (set st now key v ttl).cache ek = none ∧
      (alookup (set st now key v ttl).cache key).isSome = true) ∧
    (∀ (cap : Nat) (ttl0 : Int) (ops : List (Int × Str × α)), 1 ≤ cap →
      ops.length = cap + 1 → (ops.map (fun op => op.2.1)).Nodup →
      (∀ op ∈ ops, op.2.1 ≠ []) →
      ops.Pairwise (fun a b => a.1 < b.1) →
      (setAll (initState α cap ttl0) ops).cache.length ≤ cap) := by
  have hkey : key ∉ st.cache.map Prod.fst := (alookup_eq_none_iff _ _).mp hfresh
  have hcond : (decide (st.cache.length ≥ st.maxEntries) && !(alookup st.cache key).isSome)
      = true := by
    rw [hfresh, decide_eq_true hfull]
    rfl
  have hane : st.accessOrder ≠ [] := by
    intro hcon
    have h0 := access_length_eq st hwf
    rw [hcon] at h0
    have h1 : st.cache.length = 0 := h0.symm
    omega
  obtain ⟨ek, hek1, hek2, he1, -, -⟩ := evictOldest_spec st now hwf hane hkeys ht
  obtain ⟨k, hk1, hk2, hk3⟩ := selectOldest_spec st.accessOrder now hane ht
  have hkek : ek = k := Option.some.inj (hek1.symm.trans hk1)
  rw [hkek] at hek2 he1
  have hkey2 : key ∉ (evictOldest st now).cache.map Prod.fst := by
    rw [he1, aerase_keys]
    intro hcon
    exact hkey (List.mem_of_mem_erase hcon)
  have hkne : ¬(key = k) := fun h => hkey (h ▸ hek2)
  refine ⟨?_, ⟨k, hk1, hk2, hk3, ?_, ?_⟩, ?_⟩
  · unfold set
    rw [hcond]
    simp only [if_true]
    show (aset (evictOldest st now).cache key _).length = st.cache.length
    rw [aset_length, if_neg hkey2, he1, aerase_length_of_mem st.cache k hek2]
    have h1 : 1 ≤ st.cache.length := le_trans hcap hfull
    omega
  · unfold set
    rw [hcond]
    simp only [if_true]
    show alookup (aset (evictOldest st now).cache key _) k = none
    rw [alookup_aset_ne _ _ _ _ hkne, he1, alookup_aerase_self _ _ hwf.1]
  · unfold set
    rw [hcond]
    simp only [if_true]
    show (alookup (aset (evictOldest st now).cache key _) key).isSome = true
    rw [alookup_aset_self]
    rfl
  · intro cap ttl0 ops hc hlenops hnd hops hpw
    exact setAll_bound ops (initState α cap ttl0) ⟨List.nodup_nil, rfl⟩ (Nat.zero_le cap) hc
      (fun p hp => absurd hp (List.not_mem_nil p))
      (fun p hp => absurd hp (List.not_mem_nil p)) hops hpw

/-- State of the C6 counterexample to the truthiness leg: a capacity-1
cache whose single key is the empty string, accessed at time 0. -/
def c6emptyKey : CacheState Nat :=
  ⟨[([], ⟨7, 100, 0⟩)], [([], 0)], 1, 100, ⟨0, 0, 0, 0, 0⟩⟩

/-- C6, counterexample to the unconditional claim.  First leg: two sets of
distinct keys at the same clock value on a fresh capacity-1 cache end with
2 entries - the second set runs evictOldest, but oldestTime starts at
Date.now() and the strict comparison never fires on an access time equal
to now, so oldestKey stays null and nothing is evicted.  Second leg: a set
of a fresh key on a full cache whose minimal-access key is the empty
string evicts nothing either, because the empty string fails the
if (oldestKey) truthiness test; the cache again ends with 2 entries, one
over its capacity of 1. -/
theorem C6_counterexample :
    (setAll (initState Nat 1 100) [(0, strOf "a", 1), (0, strOf "b", 2)]).cache.length = 2 ∧
    (set c6emptyKey 5 (strOf "b") 8 none).cache.length = 2 ∧
    ¬((2 : Nat) ≤ 1) :=
  ⟨by decide, by decide, by decide⟩

/-- C6, witness: on the concrete capacity-2 cache holding the nonempty
keys a and b last accessed before time 5, setting the fresh key c at time
5 keeps the size at 2. -/
theorem C6_witness :
    CacheWF c6state ∧ 2 ≤ c6state.cache.length ∧
    (∀ p ∈ c6state.accessOrder, p.1 ≠ []) ∧
    (set c6state 5 (strOf "c") 30 none).cache.length = c6state.cache.length := by
  refine ⟨⟨by decide, by decide⟩, by decide, by decide, ?_⟩
  exact (C6_amended c6state 5 (strOf "c") 30 none ⟨by decide, by decide⟩ (by decide)
    (by decide) (by decide) (by decide) (by decide)).1

end CacheService

end Myleo

namespace Myleo

/-- The trimmed string is a contiguous substring of the original. -/
theorem trimStr_sub (s : Str) : trimStr s <:+: s := by
  unfold trimStr
  have h1 : s.dropWhile isWsChar <:+ s := List.dropWhile_suffix isWsChar
  have h2 : (s.dropWhile isWsChar).reverse.dropWhile isWsChar <:+
      (s.dropWhile isWsChar).reverse := List.dropWhile_suffix isWsChar
  have h3 := List.reverse_prefix.mpr h2
  rw [List.reverse_reverse] at h3
  exact h3.isInfix.trans h1.isInfix

/-- containsSub finds every contiguous substring. -/
theorem containsSub_of_sub (s sub : Str) (h : sub <:+: s) : containsSub s sub = true := by
  induction s with
  | nil =>
    have hsub : sub = [] := List.infix_nil.mp h
    subst hsub
    rfl
  | cons c rest ih =>
    rw [containsSub]
    by_cases hp : sub <+: (c :: rest)
    · have hb : sub.isPrefixOf (c :: rest) = true := by
        rw [List.isPrefixOf_iff_prefix]
        exact hp
      rw [hb]
      rfl
    · have hb : sub.isPrefixOf (c :: rest) = false := by
        rw [Bool.eq_false_iff]
        intro hcon
        exact hp (List.isPrefixOf_iff_prefix.mp hcon)
      rw [hb]
      simp only [Bool.false_eq_true, if_false]
      rcases List.infix_cons_iff.mp h with h2 | h2
      · exact absurd h2 hp
      · exact ih h2

namespace ChatService

/-- Effective threshold of the matcher: config.searchThreshold || 0.3
(cacheService.js 872). -/
def thrOf (c : Option ℚ) : ℚ :=
  match truthyNum c with
  | some t => t
  | none => mkRat 3 10

/-- Final score computed for one qualifying qa entry (cacheService.js
859-869): the weighted component sum plus the relevance bonus. -/
def entryFinalScore (ql : Str) (qw : List Str) (faq : FaqRow) (d : QAData) : ℚ :=
  let question := lowerStr (d.question.getD [])
  let es := entryScores ql qw question
  let totalScore := qadd (qadd (qadd (qmul es.1 (mkRat 2 5)) (qmul es.2.1 (mkRat 3 10)))
    (qmul es.2.2.1 (mkRat 1 5))) (qmul es.2.2.2 (mkRat 1 10))
  let dbRelevance := jsOrNum faq.enhanced_relevance faq.relevance 0
  qadd totalScore (qmul dbRelevance (mkRat 1 10))

theorem findBest_foldl (c : Option ℚ) (q : Str) (rows : List FaqRow) :
    findBestQAMatchEnhanced c q rows =
      (rows.foldl (rowStep (thrOf c) (trimStr (lowerStr q))
        (extractQueryWords (trimStr (lowerStr q)))) (none, 0)).1 := rfl

theorem entryStep_eq (thr : ℚ) (ql : Str) (qw : List Str) (faq : FaqRow)
    (st : Option MatchResult × ℚ) (d : QAData) :
    entryStep thr ql qw faq st ⟨strOf "app.faq_entry", some d⟩ =
      if entryFinalScore ql qw faq d > st.2 && entryFinalScore ql qw faq d ≥ thr then
        (some ⟨faq.id, d.question.getD [], d.answer.getD [], entryFinalScore ql qw faq d,
          getMatchType (entryScores ql qw (lowerStr (d.question.getD []))).1
            (entryScores ql qw (lowerStr (d.question.getD []))).2.1
            (entryScores ql qw (lowerStr (d.question.getD []))).2.2.1⟩,
         entryFinalScore ql qw faq d)
      else st := by
  rw [entryStep, if_pos rfl]
  rfl

/-- Exact-match score of a question against its own trimmed form: the
trimmed query is a substring of the untrimmed question, so includes fires
and the score is 1. -/
theorem exactScore_trim (s : Str) : calculateExactMatchScore (trimStr s) s = 1 := by
  have h := containsSub_of_sub s (trimStr s) (trimStr_sub s)
  unfold calculateExactMatchScore
  rw [h]
  rfl

/-- A fold whose step never decreases the accumulator never decreases it
overall. -/
theorem foldl_step_le {β : Type} (f : ℚ → β → ℚ) (hf : ∀ m b, m ≤ f m b) :
    ∀ (l : List β) (m : ℚ), m ≤ l.foldl f m := by
  intro l
  induction l with
  | nil => intro m; exact le_refl m
  | cons b rest ih => intro m; exact le_trans (hf m b) (ih (f m b))

theorem semanticScore_nonneg (qw : List Str) (qn : Str) :
    0 ≤ calculateSemanticScore qw qn := by
  unfold calculateSemanticScore
  split_ifs with h
  · exact le_refl 0
  · dsimp only
    rw [qdiv_eq]
    refine div_nonneg ?_ (Nat.cast_nonneg _)
    refine foldl_step_le _ ?_ qw 0
    intro m w
    split_ifs with h1 h2
    · rw [qadd_eq]
      linarith
    · rw [qadd_eq]
      have h45 : (0 : ℚ) ≤ mkRat 4 5 := by decide
      linarith
    · exact le_refl m

theorem partScore_nonneg (q qn : Str) : 0 ≤ calculatePartScore q qn := by
  unfold calculatePartScore
  dsimp only
  split_ifs with h
  · rw [qdiv_eq]
    exact div_nonneg (Nat.cast_nonneg _) (Nat.cast_nonneg _)
  · exact le_refl 0

theorem orderScore_nonneg (qw : List Str) (qn : Str) :
    0 ≤ calculateWordOrderScore qw qn := by
  unfold calculateWordOrderScore
  split_ifs with h h2
  · exact le_refl 0
  · dsimp only
    rw [qdiv_eq]
    exact div_nonneg (Nat.cast_nonneg _) (Nat.cast_nonneg _)
  · exact le_refl 0

/-- An entry whose exact-match score is 1 clears two fifths: the exact
component alone contributes 1 times its 0.4 weight and every other
contribution is nonnegative. -/
theorem entryFinalScore_ge (ql : Str) (qw : List Str) (faq : FaqRow) (d : QAData)
    (hex : calculateExactMatchScore ql (lowerStr (d.question.getD [])) = 1)
    (hrel : 0 ≤ jsOrNum faq.enhanced_relevance faq.relevance 0) :
    mkRat 2 5 ≤ entryFinalScore ql qw faq d := by
  unfold entryFinalScore entryScores
  dsimp only
  rw [hex]
  simp only [qadd_eq, qmul_eq]
  have hs := semanticScore_nonneg qw (lowerStr (d.question.getD []))
  have hp := partScore_nonneg ql (lowerStr (d.question.getD []))
  have ho := orderScore_nonneg qw (lowerStr (d.question.getD []))
  have e1 : mkRat 2 5 = (2 : ℚ) / 5 := by rw [Rat.mkRat_eq_div]; norm_num
  have e2 : mkRat 3 10 = (3 : ℚ) / 10 := by rw [Rat.mkRat_eq_div]; norm_num
  have e3 : mkRat 1 5 = (1 : ℚ) / 5 := by rw [Rat.mkRat_eq_div]; norm_num
  have e4 : mkRat 1 10 = (1 : ℚ) / 10 := by rw [Rat.mkRat_eq_div]; norm_num
  rw [e1, e2, e3, e4]
  have m1 : 0 ≤ calculateSemanticScore qw (lowerStr (d.question.getD [])) * ((3 : ℚ) / 10) := by
    apply mul_nonneg hs
    norm_num
  have m2 : 0 ≤ calculatePartScore ql (lowerStr (d.question.getD [])) * ((1 : ℚ) / 5) := by
    apply mul_nonneg hp
    norm_num
  have m3 : 0 ≤ calculateWordOrderScore qw (lowerStr (d.question.getD [])) * ((1 : ℚ) / 10) := by
    apply mul_nonneg ho
    norm_num
  have m4 : 0 ≤ jsOrNum faq.enhanced_relevance faq.relevance 0 * ((1 : ℚ) / 10) := by
    apply mul_nonneg hrel
    norm_num
  linarith

/-- Loop invariant of the matcher: either no best yet (score 0), or the
best score recorded equals the stored match score. -/
def matchInv (st : Option MatchResult × ℚ) : Prop :=
  st.2 = 0 ∨ ∃ m, st.1 = some m ∧ m.score = st.2

theorem foldl_pres {β : Type} (P : Option MatchResult × ℚ → Prop)
    (f : Option MatchResult × ℚ → β → Option MatchResult × ℚ)
    (hf : ∀ st b, P st → P (f st b)) :
    ∀ (l : List β) (st), P st → P (l.foldl f st) := by
  intro l
  induction l with
  | nil => intro st h; exact h
  | cons b rest ih => intro st h; exact ih (f st b) (hf st b h)

theorem foldl_snd_le {β : Type}
    (f : Option MatchResult × ℚ → β → Option MatchResult × ℚ)
    (hf : ∀ st b, st.2 ≤ (f st b).2) :
    ∀ (l : List β) (st), st.2 ≤ (l.foldl f st).2 := by
  intro l
  induction l with
  | nil => intro st; exact le_refl _
  | cons b rest ih => intro st; exact le_trans (hf st b) (ih (f st b))

theorem entryStep_inv (thr : ℚ) (ql : Str) (qw : List Str) (faq : FaqRow)
    (st : Option MatchResult × ℚ) (e : QAEntry) (h : matchInv st) :
    matchInv (entryStep thr ql qw faq st e) := by
  unfold entryStep
  by_cases hc : e.code = strOf "app.faq_entry"
  · rw [if_pos hc]
    cases hdd : e.data with
    | none => exact h
    | some d =>
      dsimp only
      split_ifs with h2
      · exact Or.inr ⟨_, rfl, rfl⟩
      · exact h
  · rw [if_neg hc]
    exact h

theorem entryStep_le (thr : ℚ) (ql : Str) (qw : List Str) (faq : FaqRow)
    (st : Option MatchResult × ℚ) (e : QAEntry) :
    st.2 ≤ (entryStep thr ql qw faq st e).2 := by
  unfold entryStep
  by_cases hc : e.code = strOf "app.faq_entry"
  · rw [if_pos hc]
    cases hdd : e.data with
    | none => exact le_refl _
    | some d =>
      dsimp only
      split_ifs with h2
      · simp only [Bool.and_eq_true, decide_eq_true_eq] at h2
        exact le_of_lt h2.1
      · exact le_refl _
  · rw [if_neg hc]

theorem rowStep_inv (thr : ℚ) (ql : Str) (qw : List Str)
    (st : Option MatchResult × ℚ) (faq : FaqRow) (h : matchInv st) :
    matchInv (rowStep thr ql qw st faq) := by
  unfold rowStep
  cases hdd : faq.qa_data with
  | none => exact h
  | some entries => exact foldl_pres matchInv _ (entryStep_inv thr ql qw faq) entries st h

theorem rowStep_le (thr : ℚ) (ql : Str) (qw : List Str)
    (st : Option MatchResult × ℚ) (faq : FaqRow) :
    st.2 ≤ (rowStep thr ql qw st faq).2 := by
  unfold rowStep
  cases hdd : faq.qa_data with
  | none => exact le_refl _
  | some entries => exact foldl_snd_le _ (entryStep_le thr ql qw faq) entries st

/-- Processing a qualifying entry whose final score clears two fifths
leaves the running best score at two fifths or more, whatever the state
was: either the update fires, or the running best already beat the
final score. -/
theorem entryStep_score_ge (thr : ℚ) (ql : Str) (qw : List Str) (faq : FaqRow)
    (st : Option MatchResult × ℚ) (e : QAEntry) (d : QAData)
    (hcode : e.code = strOf "app.faq_entry") (hdata : e.data = some d)
    (hfs : mkRat 2 5 ≤ entryFinalScore ql qw faq d) (hth : thr ≤ mkRat 2 5) :
    mkRat 2 5 ≤ (entryStep thr ql qw faq st e).2 := by
  obtain ⟨c, dd⟩ := e
  have hc2 : c = strOf "app.faq_entry" := hcode
  have hd2 : dd = some d := hdata
  subst hc2
  subst hd2
  rw [entryStep_eq]
  split_ifs with h2
  · exact hfs
  · simp only [Bool.and_eq_true, decide_eq_true_eq, not_and_or, not_lt, not_le] at h2
    rcases h2 with h3 | h3
    · exact le_trans hfs h3
    · have := le_trans hth hfs
      linarith

theorem rowStep_eq_of_some (thr : ℚ) (ql : Str) (qw : List Str)
    (st : Option MatchResult × ℚ) (faq : FaqRow) (entries : List QAEntry)
    (hqa : faq.qa_data = some entries) :
    rowStep thr ql qw st faq = entries.foldl (entryStep thr ql qw faq) st := by
  unfold rowStep
  rw [hqa]

/-- C9, amended: for every FAQ row list containing a qualifying qa entry
whose question equals the query up to case and surrounding whitespace,
when the effective threshold (searchThreshold || 0.3) is at most 0.4 and
no row has a negative relevance value, the matcher returns a match whose
composite score is at least 0.4 - not 0.8: the guaranteed floor is the
exact-score weight alone.  The qualifying entry itself has exact-match
score 1, so its match type classification is exact. -/
theorem C9_amended (cfgThreshold : Option ℚ) (query : Str) (faqResults : List FaqRow)
    (faq : FaqRow) (entries : List QAEntry) (e : QAEntry) (d : QAData)
    (hfaq : faq ∈ faqResults) (hqa : faq.qa_data = some entries) (he : e ∈ entries)
    (hcode : e.code = strOf "app.faq_entry") (hdata : e.data = some d)
    (hq : trimStr (lowerStr (d.question.getD [])) = trimStr (lowerStr query))
    (hth : thrOf cfgThreshold ≤ mkRat 2 5)
    (hrel : ∀ r ∈ faqResults, 0 ≤ jsOrNum r.enhanced_relevance r.relevance 0) :
    (∃ m, findBestQAMatchEnhanced cfgThreshold query faqResults = some m ∧
      mkRat 2 5 ≤ m.score) ∧
    calculateExactMatchScore (trimStr (lowerStr query)) (lowerStr (d.question.getD [])) = 1 ∧
    getMatchType
      (calculateExactMatchScore (trimStr (lowerStr query)) (lowerStr (d.question.getD [])))
      (calculateSemanticScore (extractQueryWords (trimStr (lowerStr query)))
        (lowerStr (d.question.getD [])))
      (calculatePartScore (trimStr (lowerStr query)) (lowerStr (d.question.getD [])))
      = strOf "exact" := by
  have hex : calculateExactMatchScore (trimStr (lowerStr query))
      (lowerStr (d.question.getD [])) = 1 := by
    rw [← hq]
    exact exactScore_trim (lowerStr (d.question.getD []))
  refine ⟨?_, hex, ?_⟩
  · obtain ⟨r1, r2, hr⟩ := List.append_of_mem hfaq
    obtain ⟨l1, l2, hl⟩ := List.append_of_mem he
    have hfs : mkRat 2 5 ≤ entryFinalScore (trimStr (lowerStr query))
        (extractQueryWords (trimStr (lowerStr query))) faq d :=
      entryFinalScore_ge _ _ _ _ hex (hrel faq hfaq)
    have hstep : ∀ st, mkRat 2 5 ≤ (entryStep (thrOf cfgThreshold) (trimStr (lowerStr query))
        (extractQueryWords (trimStr (lowerStr query))) faq st e).2 :=
      fun st => entryStep_score_ge _ _ _ _ st e d hcode hdata hfs hth
    have hrow : ∀ st, mkRat 2 5 ≤ (rowStep (thrOf cfgThreshold) (trimStr (lowerStr query))
        (extractQueryWords (trimStr (lowerStr query))) st faq).2 := by
      intro st
      rw [rowStep_eq_of_some _ _ _ st faq entries hqa, hl, List.foldl_append, List.foldl_cons]
      exact le_trans (hstep _) (foldl_snd_le _ (entryStep_le _ _ _ faq) l2 _)
    have hinv : matchInv (faqResults.foldl (rowStep (thrOf cfgThreshold)
        (trimStr (lowerStr query)) (extractQueryWords (trimStr (lowerStr query)))) (none, 0)) :=
      foldl_pres matchInv _
        (rowStep_inv (thrOf cfgThreshold) (trimStr (lowerStr query))
          (extractQueryWords (trimStr (lowerStr query))))
        faqResults (none, 0) (Or.inl rfl)
    rw [findBest_foldl, hr, List.foldl_append, List.foldl_cons]
    rw [hr, List.foldl_append, List.foldl_cons] at hinv
    have hfinal : mkRat 2 5 ≤ (r2.foldl (rowStep (thrOf cfgThreshold) (trimStr (lowerStr query))
        (extractQueryWords (trimStr (lowerStr query))))
        (rowStep (thrOf cfgThreshold) (trimStr (lowerStr query))
          (extractQueryWords (trimStr (lowerStr query)))
          (r1.foldl (rowStep (thrOf cfgThreshold) (trimStr (lowerStr query))
            (extractQueryWords (trimStr (lowerStr query)))) (none, 0)) faq)).2 :=
      le_trans (hrow _) (foldl_snd_le _ (rowStep_le (thrOf cfgThreshold) (trimStr (lowerStr query))
        (extractQueryWords (trimStr (lowerStr query)))) r2 _)
    rcases hinv with h0 | ⟨m, hm1, hm2⟩
    · rw [h0] at hfinal
      exact absurd hfinal (by decide)
    · refine ⟨m, hm1, ?_⟩
      rw [hm2]
      exact hfinal
  · rw [hex]
    unfold getMatchType
    rw [if_pos (by decide : (1 : ℚ) > mkRat 4 5)]

/-- QA payload of the C9 concrete example: question ace, answer x. -/
def c9data : QAData := ⟨some (strOf "ace"), some (strOf "x")⟩

/-- Entry of the C9 concrete example. -/
def c9entry : QAEntry := ⟨strOf "app.faq_entry", some c9data⟩

/-- Row of the C9 concrete example: no database relevance. -/
def c9row : FaqRow := ⟨1, some [c9entry], none, none⟩

/-- C9, counterexample: on the query ace against a row whose sole qa entry
has the question ace - equal to the query, so a fortiori equal up to case
and whitespace - the matcher returns a best match whose type is exact but
whose composite score is 0.7 (exact 1 and semantic 1 weigh 0.4 + 0.3, the
substring component requires words of four letters and scores 0, the word
order component needs two query words and scores 0), and 0.7 is below the
0.8 floor the claim states. -/
theorem C9_counterexample :
    trimStr (lowerStr (c9data.question.getD [])) = trimStr (lowerStr (strOf "ace")) ∧
    findBestQAMatchEnhanced none (strOf "ace") [c9row]
      = some ⟨1, strOf "ace", strOf "x", mkRat 7 10, strOf "exact"⟩ ∧
    ¬(mkRat 4 5 ≤ mkRat 7 10) :=
  ⟨by decide, by decide, by decide⟩

/-- C9, witness: the amended theorem applied to the concrete ace row. -/
theorem C9_witness :
    c9row ∈ [c9row] ∧ c9row.qa_data = some [c9entry] ∧ c9entry ∈ [c9entry] ∧
    c9entry.code = strOf "app.faq_entry" ∧ c9entry.data = some c9data ∧
    trimStr (lowerStr (c9data.question.getD [])) = trimStr (lowerStr (strOf "ace")) ∧
    thrOf none ≤ mkRat 2 5 ∧
    (∃ m, findBestQAMatchEnhanced none (strOf "ace") [c9row] = some m ∧
      mkRat 2 5 ≤ m.score) := by
  refine ⟨by decide, rfl, by decide, rfl, rfl, by decide, by decide, ?_⟩
  exact (C9_amended none (strOf "ace") [c9row] c9row [c9entry] c9entry c9data
    (by decide) rfl (by decide) rfl rfl (by decide) (by decide) (by decide)).1

end ChatService

end Myleo
